import Mathlib

/-!
Verification of the Hashi-style "Powering Houses" puzzle core: a shallow
embedding of the TypeScript sources (types.ts, CableManager, GameScene win
check, PuzzleGenerator) into Lean, together with theorems settling the
stated properties of the specification.

Randomness (Math.random) is abstracted by explicit oracle parameters;
JavaScript exceptions (throw / TypeError on a failed non-null assertion)
are modelled by Option, with none meaning the computation raised.
-/

set_option maxHeartbeats 1000000
set_option maxRecDepth 8000

namespace Hashi

/-- Logic representation of a House (types.ts, interface NodeData). -/
structure NodeData where
  id : String
  x : Int
  y : Int
  requiredConnections : Nat
  currentConnections : Nat
deriving DecidableEq

/-- Logic representation of a Cable (types.ts, interface EdgeData). -/
structure EdgeData where
  nodeA : String
  nodeB : String
  count : Nat
deriving DecidableEq

/-- The CableManager edge store: a JS Map from string key to EdgeData,
modelled as an insertion-ordered association list.  The operations below
mirror Map.get / Map.set (in-place update of an existing key, append of a
fresh one) / Map.delete. -/
abbrev EdgeMap := List (String × EdgeData)

/-- CableManager.getEdgeKey: canonical sorted key for an unordered id pair. -/
def getEdgeKey (idA idB : String) : String :=
  if idA < idB then idA ++ "-" ++ idB else idB ++ "-" ++ idA

/-- Map.get on the modelled edge store. -/
def mapGet (m : EdgeMap) (k : String) : Option EdgeData :=
  (m.find? (fun p => p.1 == k)).map Prod.snd

/-- Map.set on the modelled edge store: replaces in place when the key is
present (JS Maps keep the original insertion position), appends otherwise. -/
def mapSet (m : EdgeMap) (k : String) (v : EdgeData) : EdgeMap :=
  if m.any (fun p => p.1 == k) then
    m.map (fun p => if p.1 == k then (k, v) else p)
  else
    m ++ [(k, v)]

/-- Map.delete on the modelled edge store. -/
def mapDelete (m : EdgeMap) (k : String) : EdgeMap :=
  m.filter (fun p => !(p.1 == k))

/-- CableManager.getAllEdges: Array.from(this.edges.values()). -/
def edgeValues (m : EdgeMap) : List EdgeData := m.map Prod.snd

/-- CableManager.reset: this.edges.clear(). -/
def resetEdges : EdgeMap := []

/-- CableManager.hasConnection: this.edges.get(key)?.count or 0. -/
def hasConnection (m : EdgeMap) (idA idB : String) : Nat :=
  match mapGet m (getEdgeKey idA idB) with
  | some e => e.count
  | none => 0

/-- CableManager.toggleConnection: cycles the multiplicity of the unordered
pair and returns the new edge map together with the returned newCount. -/
def toggleConnection (m : EdgeMap) (nodeA nodeB : NodeData) : EdgeMap × Nat :=
  let key := getEdgeKey nodeA.id nodeB.id
  let current := mapGet m key
  let newCount : Nat :=
    match current with
    | none => 1
    | some e => if e.count = 1 then 2 else 0
  if newCount = 0 then (mapDelete m key, 0)
  else (mapSet m key ⟨nodeA.id, nodeB.id, newCount⟩, newCount)

/-- CableManager.setConnection: sets the pair multiplicity directly
(0 deletes the key). -/
def setConnection (m : EdgeMap) (nodeA nodeB : NodeData) (count : Nat) : EdgeMap :=
  let key := getEdgeKey nodeA.id nodeB.id
  if count = 0 then mapDelete m key
  else mapSet m key ⟨nodeA.id, nodeB.id, count⟩

/-- Body of canConnect's node-between loop (CableManager.canConnect step 2):
true when this other node forces an early return false. -/
def betweenHit (nodeA nodeB : NodeData) (isVertical : Bool) (other : NodeData) : Bool :=
  if other = nodeA ∨ other = nodeB then false
  else if isVertical then
    decide (other.x = nodeA.x ∧
      ((nodeA.y < other.y ∧ other.y < nodeB.y) ∨ (nodeB.y < other.y ∧ other.y < nodeA.y)))
  else
    decide (other.y = nodeA.y ∧
      ((nodeA.x < other.x ∧ other.x < nodeB.x) ∨ (nodeB.x < other.x ∧ other.x < nodeA.x)))

/-- Body of canConnect's cable-crossing loop (step 3) for one stored edge:
some true means this edge forces canConnect to return false, some false
means the loop continues, none means the non-null-asserted node lookup
failed (a JS TypeError would be raised when dereferencing). -/
def edgeBlocks (dA dB : NodeData) (allNodes : List NodeData) (isVertical : Bool)
    (edge : EdgeData) : Option Bool :=
  if edge.nodeA = dA.id ∨ edge.nodeA = dB.id ∨ edge.nodeB = dA.id ∨ edge.nodeB = dB.id then
    some false
  else
    match allNodes.find? (fun n => n.id == edge.nodeA),
          allNodes.find? (fun n => n.id == edge.nodeB) with
    | some n1, some n2 =>
      let eIsVert : Bool := n1.x == n2.x
      if isVertical && !eIsVert then
        some (decide (min n1.x n2.x < dA.x ∧ dA.x < max n1.x n2.x ∧
                      min dA.y dB.y < n1.y ∧ n1.y < max dA.y dB.y))
      else if !isVertical && eIsVert then
        some (decide (min n1.y n2.y < dA.y ∧ dA.y < max n1.y n2.y ∧
                      min dA.x dB.x < n1.x ∧ n1.x < max dA.x dB.x))
      else some false
    | _, _ => none

/-- The crossing loop of canConnect over the stored edges, in insertion
order, with early exit on the first blocking edge. -/
def crossingScan (dA dB : NodeData) (allNodes : List NodeData) (isVertical : Bool) :
    List EdgeData → Option Bool
  | [] => some false
  | e :: rest =>
    match edgeBlocks dA dB allNodes isVertical e with
    | none => none
    | some true => some true
    | some false => crossingScan dA dB allNodes isVertical rest

/-- CableManager.canConnect.  some b is the boolean the TS function returns;
none models the TypeError raised when a stored edge not sharing an endpoint
with the candidate references a node id absent from allNodes. -/
def canConnect (m : EdgeMap) (nodeA nodeB : NodeData) (allNodes : List NodeData) :
    Option Bool :=
  if nodeA.x ≠ nodeB.x ∧ nodeA.y ≠ nodeB.y then some false
  else
    let isVertical : Bool := nodeA.x == nodeB.x
    if allNodes.any (betweenHit nodeA nodeB isVertical) then some false
    else
      match crossingScan nodeA nodeB allNodes isVertical (edgeValues m) with
      | none => none
      | some true => some false
      | some false => some true

/-- Add c to the currentConnections of the first node whose id matches
(the object GameScene.checkWinCondition finds and mutates). -/
def bumpCurrent : List NodeData → String → Nat → List NodeData
  | [], _, _ => []
  | n :: rest, i, c =>
    if n.id = i then { n with currentConnections := n.currentConnections + c } :: rest
    else n :: bumpCurrent rest i c

/-- GameScene.checkWinCondition step 1: reset all currentConnections to 0,
then for each edge add its count to the first house matching each endpoint
id (if found). -/
def recomputeCounts (houses : List NodeData) (edges : List EdgeData) : List NodeData :=
  edges.foldl
    (fun hs e =>
      let hs1 := if (hs.find? (fun h => h.id == e.nodeA)).isSome then bumpCurrent hs e.nodeA e.count else hs
      if (hs1.find? (fun h => h.id == e.nodeB)).isSome then bumpCurrent hs1 e.nodeB e.count else hs1)
    (houses.map (fun h => { h with currentConnections := 0 }))

/-- The neighbour list the BFS adjacency map assigns to id u: for each edge,
nodeA pushes nodeB onto adj(nodeA) and nodeB pushes nodeA onto adj(nodeB),
in edge order. -/
def neighborsOf (edges : List EdgeData) (u : String) : List String :=
  edges.foldl
    (fun acc e =>
      let acc1 := if e.nodeA == u then acc ++ [e.nodeB] else acc
      if e.nodeB == u then acc1 ++ [e.nodeA] else acc1)
    []

/-- One BFS round: pop the queue head, push every unvisited neighbour onto
visited and the queue.  Fuel bounds the number of pops; the real while loop
terminates because every enqueue adds a fresh visited id. -/
def bfsAux (adjF : String → List String) : Nat → List String → List String → List String
  | 0, _, visited => visited
  | _ + 1, [], visited => visited
  | fuel + 1, curr :: rest, visited =>
    let st := (adjF curr).foldl
      (fun (vq : List String × List String) n =>
        if n ∈ vq.1 then vq else (vq.1 ++ [n], vq.2 ++ [n]))
      (visited, rest)
    bfsAux adjF fuel st.2 st.1

/-- GameScene.checkWinCondition step 3: BFS over the edge adjacency from a
start id; returns the visited set in insertion order.  The fuel
2 * edges.length + 1 dominates the number of possible pops (every id ever
enqueued is fresh and drawn from the start id or an edge endpoint). -/
def bfsRun (edges : List EdgeData) (start : String) : List String :=
  bfsAux (neighborsOf edges) (2 * edges.length + 1) [start] [start]

/-- GameScene.checkWinCondition: true iff this.victory() is reached, i.e.
all recomputed degrees match requiredConnections, the house list is
nonempty, and the BFS visited set size equals the number of houses. -/
def checkWinCondition (houses : List NodeData) (edges : List EdgeData) : Bool :=
  let hs := recomputeCounts houses edges
  if hs.all (fun h => h.currentConnections == h.requiredConnections) then
    match hs with
    | [] => false
    | h0 :: _ => (bfsRun edges h0.id).length == hs.length
  else false

/-- Difficulty tiers (types.ts, enum Difficulty). -/
inductive Difficulty where
  | easy
  | medium
  | hard
deriving DecidableEq

/-- types.ts DifficultyConfig.  scale is a render-only factor, kept as an
exact rational. -/
structure DifficultyConfig where
  gridSize : Nat
  nodeCountLo : Nat
  nodeCountHi : Nat
  maxConnections : Nat
  scale : ℚ
deriving DecidableEq

/-- types.ts DIFFICULTY_SETTINGS. -/
def DIFFICULTY_SETTINGS : Difficulty → DifficultyConfig
  | .easy => ⟨5, 6, 9, 4, 1⟩
  | .medium => ⟨7, 8, 12, 6, (85 : ℚ) / 100⟩
  | .hard => ⟨10, 12, 18, 8, (7 : ℚ) / 10⟩

/-- A candidate edge of the generator (potentialEdges entry). -/
structure PotEdge where
  u : NodeData
  v : NodeData
  dist : Nat
deriving DecidableEq

/-- A generated puzzle: the return value of PuzzleGenerator.generate. -/
structure Puzzle where
  nodes : List NodeData
  solutionEdges : List EdgeData
deriving DecidableEq

/-- PuzzleGenerator.isNodeBetween. -/
def isNodeBetween (u v : NodeData) (allNodes : List NodeData) : Bool :=
  let isVertical : Bool := u.x == v.x
  allNodes.any (fun node =>
    if node.id = u.id ∨ node.id = v.id then false
    else if isVertical then
      decide (node.x = u.x ∧ ((u.y < node.y ∧ node.y < v.y) ∨ (v.y < node.y ∧ node.y < u.y)))
    else
      decide (node.y = u.y ∧ ((u.x < node.x ∧ node.x < v.x) ∨ (v.x < node.x ∧ node.x < u.x))))

/-- PuzzleGenerator.linesCross: strict open-interval crossing of one
vertical and one horizontal segment; parallel segments never cross. -/
def linesCross (a1 a2 b1 b2 : NodeData) : Bool :=
  let isAVert : Bool := a1.x == a2.x
  let isBVert : Bool := b1.x == b2.x
  if isAVert == isBVert then false
  else if isAVert then
    decide ((min b1.x b2.x < a1.x ∧ a1.x < max b1.x b2.x) ∧
            (min a1.y a2.y < b1.y ∧ b1.y < max a1.y a2.y))
  else
    decide ((min b1.y b2.y < a1.y ∧ a1.y < max b1.y b2.y) ∧
            (min a1.x a2.x < b1.x ∧ b1.x < max a1.x a2.x))

/-- The pairs (nodes[i], nodes[j]) with i lower than j, in the double-loop
order of tryGenerate step 2. -/
def upperPairs : List NodeData → List (NodeData × NodeData)
  | [] => []
  | n :: rest => rest.map (fun m => (n, m)) ++ upperPairs rest

/-- tryGenerate step 2: all aligned, unblocked candidate edges with their
Manhattan distance. -/
def potentialEdges (nodes : List NodeData) : List PotEdge :=
  ((upperPairs nodes).filter (fun p =>
      !(decide (p.1.x ≠ p.2.x ∧ p.1.y ≠ p.2.y)) && !(isNodeBetween p.1 p.2 nodes))).map
    (fun p => ⟨p.1, p.2, (p.1.x - p.2.x).natAbs + (p.1.y - p.2.y).natAbs⟩)

/-- DisjointSet.find with path compression, fuelled (the source recursion
terminates because the parent array is a forest; out-of-fuel returns the
current index, a case never reached on forest-shaped parents). -/
def dsFind : Nat → List Nat → Nat → Nat × List Nat
  | 0, parent, i => (i, parent)
  | fuel + 1, parent, i =>
    if parent.getD i i = i then (i, parent)
    else
      let r := dsFind fuel parent (parent.getD i i)
      (r.1, r.2.set i r.1)

/-- DisjointSet.union: re-finds both roots, attaches one under the other,
decrements the live component count when they differed. -/
def dsUnion (parent : List Nat) (count : Nat) (i j : Nat) : List Nat × Nat :=
  let fi := dsFind (parent.length + 1) parent i
  let fj := dsFind (parent.length + 1) fi.2 j
  if fi.1 ≠ fj.1 then (fj.2.set fi.1 fj.1, count - 1)
  else (fj.2, count)

/-- The random draws of one tryGenerate attempt, abstracted: raw randoms are
reduced with mod to model Math.floor(Math.random() * n); shuffle stands for
the randomised comparator sort (any permutation); treeTwo and extraTwo are
the count-2 coin flips, indexed by how many edges have been accepted so far. -/
structure GenOracle where
  numNodesRand : Nat
  placeRand : Nat → Nat → Nat × Nat
  shuffle : List PotEdge → List PotEdge
  treeTwo : Nat → Bool
  extraTwo : Nat → Bool

/-- One node's placement loop (up to 50 attempts for a free cell). -/
def placeNodeAux (gridSize : Nat) (sample : Nat → Nat × Nat)
    (occupied : List (Int × Int)) : Nat → Nat → Option (Int × Int)
  | 0, _ => none
  | fuel + 1, j =>
    let p := sample j
    let cell : Int × Int := ((p.1 % gridSize : Nat), (p.2 % gridSize : Nat))
    if cell ∈ occupied then placeNodeAux gridSize sample occupied fuel (j + 1)
    else some cell

/-- tryGenerate step 1: place numNodes nodes one by one on distinct cells;
a node whose 50 placement attempts all collide is skipped. -/
def placeNodes (gridSize : Nat) (o : GenOracle) (numNodes : Nat) : List NodeData :=
  List.foldl
    (fun acc i =>
      match placeNodeAux gridSize (o.placeRand i) (acc.map (fun n => (n.x, n.y))) 50 0 with
      | some cell =>
        acc ++ [{ id := "n_" ++ Nat.repr i, x := cell.1, y := cell.2,
                  requiredConnections := 0, currentConnections := 0 }]
      | none => acc)
    [] (List.range numNodes)

/-- The isCrossing helper of tryGenerate: does the candidate segment u-v
cross any already-accepted edge?  none models the TypeError raised when an
accepted edge references an id absent from nodes. -/
def isCrossing (nodes : List NodeData) (edges : List EdgeData) (u v : NodeData) :
    Option Bool :=
  match edges with
  | [] => some false
  | e :: rest =>
    match nodes.find? (fun n => n.id == e.nodeA), nodes.find? (fun n => n.id == e.nodeB) with
    | some eU, some eV =>
      if linesCross u v eU eV then some true else isCrossing nodes rest u v
    | _, _ => none

/-- The state threaded through the Kruskal loop of tryGenerate step 3. -/
structure KState where
  edges : List EdgeData
  parent : List Nat
  count : Nat
deriving DecidableEq

/-- One iteration of the Kruskal loop: if the endpoints are in different
components and the candidate crosses no accepted edge, union them and accept
the edge with count 2 when the coin flip says so, else 1. -/
def kruskalStep (nodes : List NodeData) (o : GenOracle) (st : KState) (p : PotEdge) :
    Option KState :=
  let uIdx := nodes.findIdx (fun n => n.id == p.u.id)
  let vIdx := nodes.findIdx (fun n => n.id == p.v.id)
  let fu := dsFind (st.parent.length + 1) st.parent uIdx
  let fv := dsFind (st.parent.length + 1) fu.2 vIdx
  if fu.1 ≠ fv.1 then
    match isCrossing nodes st.edges p.u p.v with
    | none => none
    | some true => some { st with parent := fv.2 }
    | some false =>
      let un := dsUnion fv.2 st.count uIdx vIdx
      let c : Nat := if o.treeTwo st.edges.length then 2 else 1
      some { edges := st.edges ++ [⟨p.u.id, p.v.id, c⟩], parent := un.1, count := un.2 }
  else some { st with parent := fv.2 }

/-- One iteration of the extra-edge loop of tryGenerate step 4 (the break on
reaching the target is a no-op continuation). -/
def extraStep (nodes : List NodeData) (o : GenOracle) (target : Nat)
    (st : List EdgeData × Nat) (p : PotEdge) : Option (List EdgeData × Nat) :=
  if st.2 ≥ target then some st
  else
    let ex := st.1.any (fun e =>
      (e.nodeA == p.u.id && e.nodeB == p.v.id) || (e.nodeA == p.v.id && e.nodeB == p.u.id))
    if ex then some st
    else
      match isCrossing nodes st.1 p.u p.v with
      | none => none
      | some true => some st
      | some false =>
        let c : Nat := if o.extraTwo st.2 then 2 else 1
        some (st.1 ++ [⟨p.u.id, p.v.id, c⟩], st.2 + 1)

/-- Add c to the requiredConnections of the first node whose id matches
(the object mutated in tryGenerate step 5). -/
def bumpReq : List NodeData → String → Nat → List NodeData
  | [], _, _ => []
  | n :: rest, i, c =>
    if n.id = i then { n with requiredConnections := n.requiredConnections + c } :: rest
    else n :: bumpReq rest i c

/-- One iteration of the degree-pruning loop of tryGenerate step 5: accept
the edge only if adding its count keeps both endpoints at or below
maxConnections; none models the TypeError on the non-null-asserted lookups. -/
def pruneStep (maxConnections : Nat) (st : List NodeData × List EdgeData) (e : EdgeData) :
    Option (List NodeData × List EdgeData) :=
  match st.1.find? (fun n => n.id == e.nodeA), st.1.find? (fun n => n.id == e.nodeB) with
  | some nA, some nB =>
    if nA.requiredConnections + e.count ≤ maxConnections ∧
       nB.requiredConnections + e.count ≤ maxConnections then
      some (bumpReq (bumpReq st.1 e.nodeA e.count) e.nodeB e.count, st.2 ++ [e])
    else some st
  | _, _ => none

/-- PuzzleGenerator.tryGenerate for one attempt; none models a thrown
exception (caught by generate).  The extra-edge target models
Math.floor(edges.length * 0.3), which for every feasible length agrees with
length * 3 / 10 in exact arithmetic. -/
def tryGenerate (gridSize : Nat) (nodeLo nodeHi maxConnections : Nat) (o : GenOracle) :
    Option Puzzle := do
  let numNodes := nodeLo + o.numNodesRand % (nodeHi - nodeLo + 1)
  let nodes := placeNodes gridSize o numNodes
  if nodes.length < nodeLo then none
  else
    let shuffled := o.shuffle (potentialEdges nodes)
    let st0 : KState := ⟨[], List.range nodes.length, nodes.length⟩
    let st ← shuffled.foldlM (kruskalStep nodes o) st0
    if st.count > 1 then none
    else
      let target := st.edges.length * 3 / 10
      let ex ← shuffled.foldlM (extraStep nodes o target) (st.edges, 0)
      let pruned ← ex.1.foldlM (pruneStep maxConnections) (nodes.map
        (fun n => { n with requiredConnections := 0 }), [])
      if pruned.1.any (fun n => n.requiredConnections == 0) then none
      else some ⟨pruned.1, pruned.2⟩

/-- PuzzleGenerator.createFallbackPuzzle: the hardcoded 4-node square loop. -/
def createFallbackPuzzle : Puzzle :=
  { nodes :=
      [⟨"n_0", 1, 1, 2, 0⟩, ⟨"n_1", 3, 1, 2, 0⟩, ⟨"n_2", 1, 3, 2, 0⟩, ⟨"n_3", 3, 3, 2, 0⟩],
    solutionEdges :=
      [⟨"n_0", "n_1", 1⟩, ⟨"n_1", "n_3", 1⟩, ⟨"n_3", "n_2", 1⟩, ⟨"n_2", "n_0", 1⟩] }

/-- The retry loop of PuzzleGenerator.generate: at most 100 attempts, then
the fallback.  The oracle stream supplies each attempt's fresh randomness. -/
def generateAux (f : Nat → Option Puzzle) : Nat → Nat → Puzzle
  | 0, _ => createFallbackPuzzle
  | fuel + 1, k =>
    match f k with
    | some p => p
    | none => generateAux f fuel (k + 1)

/-- PuzzleGenerator.generate. -/
def generate (d : Difficulty) (os : Nat → GenOracle) : Puzzle :=
  let s := DIFFICULTY_SETTINGS d
  generateAux (fun k => tryGenerate s.gridSize s.nodeCountLo s.nodeCountHi s.maxConnections (os k))
    100 0

/-! ### Basic lemmas about the modelled JS Map -/

theorem find?_mapDelete (m : EdgeMap) (k : String) :
    (mapDelete m k).find? (fun p => p.1 == k) = none := by
  rw [List.find?_eq_none]
  intro p hp
  have := (List.mem_filter.mp hp).2
  simpa using this

theorem mapGet_mapDelete_self (m : EdgeMap) (k : String) :
    mapGet (mapDelete m k) k = none := by
  simp [mapGet, find?_mapDelete]

theorem find?_mapSet_of_any (m : EdgeMap) (k : String) (v : EdgeData)
    (h : m.any (fun p => p.1 == k) = true) :
    (m.map (fun p => if p.1 == k then (k, v) else p)).find? (fun p => p.1 == k) =
      some (k, v) := by
  induction m with
  | nil => simp at h
  | cons p rest ih =>
    by_cases hp : p.1 = k
    · simp [List.find?_cons_of_pos, hp]
    · have hrest : rest.any (fun q => q.1 == k) = true := by
        simp only [List.any_cons] at h
        rcases Bool.or_eq_true_iff.mp h with h1 | h2
        · exact absurd (by simpa using h1) hp
        · exact h2
      have hne : ((if (p.1 == k) then (k, v) else p).1 == k) = false := by
        simp [hp]
      simp only [List.map_cons]
      rw [List.find?_cons_of_neg _ (by simp [hp])]
      exact ih hrest

theorem find?_none_of_any_false (m : EdgeMap) (k : String)
    (h : m.any (fun p => p.1 == k) = false) :
    m.find? (fun p => p.1 == k) = none := by
  rw [List.find?_eq_none]
  intro p hp hc
  have : m.any (fun p => p.1 == k) = true := List.any_eq_true.mpr ⟨p, hp, hc⟩
  simp [this] at h

theorem mapGet_mapSet_self (m : EdgeMap) (k : String) (v : EdgeData) :
    mapGet (mapSet m k v) k = some v := by
  unfold mapSet
  by_cases h : m.any (fun p => p.1 == k)
  · rw [if_pos h]
    unfold mapGet
    rw [find?_mapSet_of_any m k v h]
    rfl
  · rw [if_neg h]
    unfold mapGet
    rw [List.find?_append, find?_none_of_any_false m k (by revert h; cases hx : (m.any fun p => p.1 == k) <;> simp)]
    simp

/-! ### C7: toggle cycling -/

/-- Step lemma: toggling an absent pair stores multiplicity 1 and returns 1. -/
theorem toggleConnection_none (m : EdgeMap) (a b : NodeData)
    (h : mapGet m (getEdgeKey a.id b.id) = none) :
    toggleConnection m a b = (mapSet m (getEdgeKey a.id b.id) ⟨a.id, b.id, 1⟩, 1) := by
  simp [toggleConnection, h]

/-- Step lemma: toggling a pair stored with count 1 stores 2 and returns 2. -/
theorem toggleConnection_one (m : EdgeMap) (a b : NodeData) (e : EdgeData)
    (h : mapGet m (getEdgeKey a.id b.id) = some e) (hc : e.count = 1) :
    toggleConnection m a b = (mapSet m (getEdgeKey a.id b.id) ⟨a.id, b.id, 2⟩, 2) := by
  simp [toggleConnection, h, hc]

/-- Step lemma: toggling a pair stored with count other than 1 deletes the
key and returns 0. -/
theorem toggleConnection_other (m : EdgeMap) (a b : NodeData) (e : EdgeData)
    (h : mapGet m (getEdgeKey a.id b.id) = some e) (hc : e.count ≠ 1) :
    toggleConnection m a b = (mapDelete m (getEdgeKey a.id b.id), 0) := by
  simp [toggleConnection, h, hc]

/-- C7: toggleConnection on an unordered node pair cycles the pair's
multiplicity absent → 1 → 2 → absent and returns the resulting multiplicity
(0 meaning now absent), unconditionally; three consecutive toggles on the
same pair starting from absent return it to absent. -/
theorem c7_toggle_cycle (m : EdgeMap) (a b : NodeData)
    (h : mapGet m (getEdgeKey a.id b.id) = none) :
    (toggleConnection m a b).2 = 1 ∧
    hasConnection (toggleConnection m a b).1 a.id b.id = 1 ∧
    (toggleConnection (toggleConnection m a b).1 a b).2 = 2 ∧
    hasConnection (toggleConnection (toggleConnection m a b).1 a b).1 a.id b.id = 2 ∧
    (toggleConnection (toggleConnection (toggleConnection m a b).1 a b).1 a b).2 = 0 ∧
    mapGet (toggleConnection (toggleConnection (toggleConnection m a b).1 a b).1 a b).1
      (getEdgeKey a.id b.id) = none := by
  have h1 := toggleConnection_none m a b h
  have g1 : mapGet (toggleConnection m a b).1 (getEdgeKey a.id b.id) =
      some ⟨a.id, b.id, 1⟩ := by
    rw [h1]; exact mapGet_mapSet_self _ _ _
  have h2 := toggleConnection_one (toggleConnection m a b).1 a b ⟨a.id, b.id, 1⟩ g1 rfl
  have g2 : mapGet (toggleConnection (toggleConnection m a b).1 a b).1
      (getEdgeKey a.id b.id) = some ⟨a.id, b.id, 2⟩ := by
    rw [h2]; exact mapGet_mapSet_self _ _ _
  have h3 := toggleConnection_other (toggleConnection (toggleConnection m a b).1 a b).1
      a b ⟨a.id, b.id, 2⟩ g2 (by simp)
  refine ⟨by rw [h1], ?_, by rw [h2], ?_, by rw [h3], ?_⟩
  · simp [hasConnection, g1]
  · simp [hasConnection, g2]
  · rw [h3]; exact mapGet_mapDelete_self _ _

/-- Witness for C7 at a concrete pair in the empty store. -/
theorem c7_toggle_cycle_witness :
    mapGet ([] : EdgeMap) (getEdgeKey "a" "b") = none ∧
    (toggleConnection [] ⟨"a", 0, 0, 2, 0⟩ ⟨"b", 2, 0, 2, 0⟩).2 = 1 :=
  ⟨rfl, (c7_toggle_cycle [] ⟨"a", 0, 0, 2, 0⟩ ⟨"b", 2, 0, 2, 0⟩ rfl).1⟩

/-! ### C9: edge-store invariant -/

/-- The edge-store states reachable by any sequence of toggleConnection,
setConnection with count in 0..2, and reset, from the freshly constructed
empty store. -/
inductive CMReachable : EdgeMap → Prop where
  | init : CMReachable resetEdges
  | toggle (m : EdgeMap) (a b : NodeData) :
      CMReachable m → CMReachable (toggleConnection m a b).1
  | set (m : EdgeMap) (a b : NodeData) (c : Nat) :
      CMReachable m → c = 0 ∨ c = 1 ∨ c = 2 → CMReachable (setConnection m a b c)
  | reset (m : EdgeMap) : CMReachable m → CMReachable resetEdges

/-- The store invariant: keys are pairwise distinct, every entry sits under
the canonical sorted key of its own endpoints (so the two orders of a pair
collide on one entry), and every stored count is 1 or 2 (multiplicity 0 is
only ever represented by key removal). -/
def StoreInv (m : EdgeMap) : Prop :=
  (m.map Prod.fst).Nodup ∧
  ∀ p ∈ m, p.1 = getEdgeKey p.2.nodeA p.2.nodeB ∧ (p.2.count = 1 ∨ p.2.count = 2)

theorem storeInv_mapDelete (m : EdgeMap) (k : String) (h : StoreInv m) :
    StoreInv (mapDelete m k) := by
  constructor
  · exact ((List.filter_sublist _).map Prod.fst).nodup h.1
  · intro p hp
    exact h.2 p (List.mem_filter.mp hp).1

theorem storeInv_mapSet (m : EdgeMap) (v : EdgeData) (h : StoreInv m)
    (hc : v.count = 1 ∨ v.count = 2) :
    StoreInv (mapSet m (getEdgeKey v.nodeA v.nodeB) v) := by
  unfold mapSet
  by_cases hany : m.any (fun p => p.1 == getEdgeKey v.nodeA v.nodeB)
  · rw [if_pos hany]
    constructor
    · have hfst : (m.map (fun p =>
          if p.1 == getEdgeKey v.nodeA v.nodeB then (getEdgeKey v.nodeA v.nodeB, v) else p)).map
            Prod.fst = m.map Prod.fst := by
        rw [List.map_map]
        apply List.map_congr_left
        intro p _
        by_cases hk : p.1 = getEdgeKey v.nodeA v.nodeB
        · simp [hk]
        · simp [hk]
      rw [hfst]
      exact h.1
    · intro p hp
      rcases List.mem_map.mp hp with ⟨q, hq, hqe⟩
      by_cases hk : q.1 = getEdgeKey v.nodeA v.nodeB
      · simp only [hk, beq_self_eq_true, if_true] at hqe
        rw [← hqe]
        exact ⟨rfl, hc⟩
      · simp only [beq_iff_eq, hk, if_false] at hqe
        rw [← hqe]
        exact h.2 q hq
  · rw [if_neg hany]
    constructor
    · rw [List.map_append]
      apply List.Nodup.append h.1 (List.nodup_singleton _)
      intro x hx hx'
      simp only [List.map_cons, List.map_nil, List.mem_singleton] at hx'
      rcases List.mem_map.mp hx with ⟨q, hq, hqe⟩
      apply hany
      refine List.any_eq_true.mpr ⟨q, hq, ?_⟩
      simp [hqe, hx']
    · intro p hp
      rcases List.mem_append.mp hp with hp1 | hp2
      · exact h.2 p hp1
      · simp only [List.mem_singleton] at hp2
        rw [hp2]
        exact ⟨rfl, hc⟩

/-- C9: after any sequence of toggleConnection, setConnection with count in
0..2, and reset, the edge store has pairwise-distinct canonical keys (so at
most one entry per unordered pair, both orders colliding on the sorted key)
and every stored count is 1 or 2; a zero count is never stored. -/
theorem c9_store_invariant (m : EdgeMap) (h : CMReachable m) :
    (m.map Prod.fst).Nodup ∧
    ∀ p ∈ m, p.1 = getEdgeKey p.2.nodeA p.2.nodeB ∧ (p.2.count = 1 ∨ p.2.count = 2) := by
  have : StoreInv m := by
    induction h with
    | init => exact ⟨List.nodup_nil, by intro p hp; simp [resetEdges] at hp⟩
    | toggle m a b _ ih =>
      unfold toggleConnection
      cases hg : mapGet m (getEdgeKey a.id b.id) with
      | none =>
        simpa [hg] using storeInv_mapSet m ⟨a.id, b.id, 1⟩ ih (Or.inl rfl)
      | some e =>
        by_cases h1 : e.count = 1
        · simpa [hg, h1] using storeInv_mapSet m ⟨a.id, b.id, 2⟩ ih (Or.inr rfl)
        · simpa [hg, h1] using storeInv_mapDelete m (getEdgeKey a.id b.id) ih
    | set m a b c _ hcv ih =>
      unfold setConnection
      rcases hcv with h0 | h1 | h2
      · simpa [h0] using storeInv_mapDelete m (getEdgeKey a.id b.id) ih
      · simpa [h1] using storeInv_mapSet m ⟨a.id, b.id, 1⟩ ih (Or.inl rfl)
      · simpa [h2] using storeInv_mapSet m ⟨a.id, b.id, 2⟩ ih (Or.inr rfl)
    | reset m _ _ => exact ⟨List.nodup_nil, by intro p hp; simp [resetEdges] at hp⟩
  exact this

/-- Witness for C9: the invariant evaluated on a store reached by one
toggle from the empty store. -/
theorem c9_store_invariant_witness :
    CMReachable (toggleConnection resetEdges ⟨"a", 0, 0, 2, 0⟩ ⟨"b", 2, 0, 2, 0⟩).1 ∧
    (((toggleConnection resetEdges ⟨"a", 0, 0, 2, 0⟩ ⟨"b", 2, 0, 2, 0⟩).1.map
        Prod.fst).Nodup ∧
      ∀ p ∈ (toggleConnection resetEdges ⟨"a", 0, 0, 2, 0⟩ ⟨"b", 2, 0, 2, 0⟩).1,
        p.1 = getEdgeKey p.2.nodeA p.2.nodeB ∧ (p.2.count = 1 ∨ p.2.count = 2)) :=
  ⟨CMReachable.toggle _ _ _ CMReachable.init,
    c9_store_invariant _ (CMReachable.toggle _ _ _ CMReachable.init)⟩

/-! ### C6: symmetry of canConnect -/

theorem betweenHit_symm_vert (a b o : NodeData) (hx : a.x = b.x) :
    betweenHit a b true o = betweenHit b a true o := by
  unfold betweenHit
  by_cases h : o = a ∨ o = b
  · rw [if_pos h, if_pos (Or.symm h)]
  · rw [if_neg h, if_neg (fun hc => h (Or.symm hc)), if_pos rfl, if_pos rfl]
    rw [decide_eq_decide]
    omega

theorem betweenHit_symm_horiz (a b o : NodeData) (hy : a.y = b.y) :
    betweenHit a b false o = betweenHit b a false o := by
  unfold betweenHit
  by_cases h : o = a ∨ o = b
  · rw [if_pos h, if_pos (Or.symm h)]
  · rw [if_neg h, if_neg (fun hc => h (Or.symm hc)), if_neg (by decide), if_neg (by decide)]
    rw [decide_eq_decide]
    omega

theorem edgeBlocks_symm_vert (a b : NodeData) (ns : List NodeData) (e : EdgeData)
    (hx : a.x = b.x) :
    edgeBlocks a b ns true e = edgeBlocks b a ns true e := by
  unfold edgeBlocks
  by_cases h : e.nodeA = a.id ∨ e.nodeA = b.id ∨ e.nodeB = a.id ∨ e.nodeB = b.id
  · rw [if_pos h, if_pos (by tauto)]
  · rw [if_neg h, if_neg (by tauto)]
    cases h1 : ns.find? (fun n => n.id == e.nodeA) with
    | none => rfl
    | some n1 =>
      cases h2 : ns.find? (fun n => n.id == e.nodeB) with
      | none => rfl
      | some n2 =>
        by_cases hev : n1.x = n2.x
        · have hb : (n1.x == n2.x) = true := by simp [hev]
          simp only [hb]
          rw [if_neg (by decide), if_neg (by decide), if_neg (by decide), if_neg (by decide)]
        · have hb : (n1.x == n2.x) = false := by simp [hev]
          simp only [hb]
          rw [if_pos (by decide), if_pos (by decide)]
          refine congrArg some ?_
          rw [decide_eq_decide]
          omega

theorem edgeBlocks_symm_horiz (a b : NodeData) (ns : List NodeData) (e : EdgeData)
    (hy : a.y = b.y) :
    edgeBlocks a b ns false e = edgeBlocks b a ns false e := by
  unfold edgeBlocks
  by_cases h : e.nodeA = a.id ∨ e.nodeA = b.id ∨ e.nodeB = a.id ∨ e.nodeB = b.id
  · rw [if_pos h, if_pos (by tauto)]
  · rw [if_neg h, if_neg (by tauto)]
    cases h1 : ns.find? (fun n => n.id == e.nodeA) with
    | none => rfl
    | some n1 =>
      cases h2 : ns.find? (fun n => n.id == e.nodeB) with
      | none => rfl
      | some n2 =>
        by_cases hev : n1.x = n2.x
        · have hb : (n1.x == n2.x) = true := by simp [hev]
          simp only [hb]
          rw [if_neg (by decide), if_pos (by decide), if_neg (by decide), if_pos (by decide)]
          refine congrArg some ?_
          rw [decide_eq_decide]
          omega
        · have hb : (n1.x == n2.x) = false := by simp [hev]
          simp only [hb]
          rw [if_neg (by decide), if_neg (by decide), if_neg (by decide), if_neg (by decide)]

theorem crossingScan_symm_vert (a b : NodeData) (ns : List NodeData) (hx : a.x = b.x)
    (l : List EdgeData) :
    crossingScan a b ns true l = crossingScan b a ns true l := by
  induction l with
  | nil => rfl
  | cons e rest ih =>
    unfold crossingScan
    rw [edgeBlocks_symm_vert a b ns e hx, ih]

theorem crossingScan_symm_horiz (a b : NodeData) (ns : List NodeData) (hy : a.y = b.y)
    (l : List EdgeData) :
    crossingScan a b ns false l = crossingScan b a ns false l := by
  induction l with
  | nil => rfl
  | cons e rest ih =>
    unfold crossingScan
    rw [edgeBlocks_symm_horiz a b ns e hy, ih]

/-- C6: the legality check is symmetric in its two node arguments, for every
state of the placed-edge store (crash behaviour included). -/
theorem c6_canConnect_symm (m : EdgeMap) (a b : NodeData) (allNodes : List NodeData) :
    canConnect m a b allNodes = canConnect m b a allNodes := by
  unfold canConnect
  by_cases hal : a.x ≠ b.x ∧ a.y ≠ b.y
  · rw [if_pos hal, if_pos ⟨fun hc => hal.1 hc.symm, fun hc => hal.2 hc.symm⟩]
  · have hal' : ¬(b.x ≠ a.x ∧ b.y ≠ a.y) := fun hc =>
      hal ⟨fun h => hc.1 h.symm, fun h => hc.2 h.symm⟩
    rw [if_neg hal, if_neg hal']
    by_cases hx : a.x = b.x
    · have ivab : (a.x == b.x) = true := by simp [hx]
      have ivba : (b.x == a.x) = true := by simp [hx.symm]
      simp only [ivab, ivba]
      rw [congrArg allNodes.any (funext fun o => betweenHit_symm_vert a b o hx),
        crossingScan_symm_vert a b allNodes hx]
    · have hy : a.y = b.y := by
        rcases not_and_or.mp hal with h | h
        · exact absurd (not_not.mp h) hx
        · exact not_not.mp h
      have ivab : (a.x == b.x) = false := by simp [hx]
      have ivba : (b.x == a.x) = false := by
        simp only [beq_eq_false_iff_ne, ne_eq]
        intro hc
        exact hx hc.symm
      simp only [ivab, ivba]
      rw [congrArg allNodes.any (funext fun o => betweenHit_symm_horiz a b o hy),
        crossingScan_symm_horiz a b allNodes hy]

/-! ### C10: the degenerate self-pair always passes the legality check -/

theorem betweenHit_self (a o : NodeData) : betweenHit a a (a.x == a.x) o = false := by
  unfold betweenHit
  by_cases h : o = a ∨ o = a
  · rw [if_pos h]
  · rw [if_neg h]
    have hiv : (a.x == a.x) = true := by simp
    rw [hiv, if_pos rfl, decide_eq_false_iff_not]
    omega

theorem edgeBlocks_self (a : NodeData) (ns : List NodeData) (e : EdgeData)
    (h1 : (ns.find? (fun n => n.id == e.nodeA)).isSome)
    (h2 : (ns.find? (fun n => n.id == e.nodeB)).isSome) :
    edgeBlocks a a ns (a.x == a.x) e = some false := by
  unfold edgeBlocks
  by_cases hs : e.nodeA = a.id ∨ e.nodeA = a.id ∨ e.nodeB = a.id ∨ e.nodeB = a.id
  · rw [if_pos hs]
  · rw [if_neg hs]
    rcases Option.isSome_iff_exists.mp h1 with ⟨n1, hn1⟩
    rcases Option.isSome_iff_exists.mp h2 with ⟨n2, hn2⟩
    simp only [hn1, hn2]
    have hiv : (a.x == a.x) = true := by simp
    by_cases hev : n1.x = n2.x
    · have hb : (n1.x == n2.x) = true := by simp [hev]
      simp only [hiv, hb]
      rw [if_neg (by decide), if_neg (by decide)]
    · have hb : (n1.x == n2.x) = false := by simp [hev]
      simp only [hiv, hb]
      rw [if_pos (by decide)]
      refine congrArg some ?_
      rw [decide_eq_false_iff_not]
      omega

theorem crossingScan_self (a : NodeData) (ns : List NodeData) (l : List EdgeData)
    (hres : ∀ e ∈ l, (ns.find? (fun n => n.id == e.nodeA)).isSome ∧
      (ns.find? (fun n => n.id == e.nodeB)).isSome) :
    crossingScan a a ns (a.x == a.x) l = some false := by
  induction l with
  | nil => rfl
  | cons e rest ih =>
    unfold crossingScan
    rw [edgeBlocks_self a ns e (hres e (List.mem_cons_self e rest)).1
      (hres e (List.mem_cons_self e rest)).2]
    exact ih (fun e' he' => hres e' (List.mem_cons_of_mem e he'))

/-- C10: for every node a and every placed-edge store whose entries resolve
in allNodes, canConnect a a allNodes returns true: the degenerate self-pair
passes the alignment, betweenness and crossing tests, although the data
model requires edge endpoints to be distinct. -/
theorem c10_canConnect_self (m : EdgeMap) (a : NodeData) (allNodes : List NodeData)
    (hres : ∀ e ∈ edgeValues m, (allNodes.find? (fun n => n.id == e.nodeA)).isSome ∧
      (allNodes.find? (fun n => n.id == e.nodeB)).isSome) :
    canConnect m a a allNodes = some true := by
  unfold canConnect
  rw [if_neg (fun hc => hc.1 rfl)]
  simp only []
  have hbet : allNodes.any (betweenHit a a (a.x == a.x)) = false :=
    List.any_eq_false.mpr (fun o _ => by rw [betweenHit_self a o]; exact Bool.false_ne_true)
  rw [hbet, if_neg Bool.false_ne_true, crossingScan_self a allNodes (edgeValues m) hres]

/-- Witness for C10 at a concrete store with one resolvable edge. -/
theorem c10_canConnect_self_witness :
    (∀ e ∈ edgeValues [("b-c", (⟨"b", "c", 1⟩ : EdgeData))],
      ((([⟨"a", 2, 2, 2, 0⟩, ⟨"b", 0, 0, 1, 0⟩, ⟨"c", 0, 4, 1, 0⟩] : List NodeData).find?
          (fun n => n.id == e.nodeA)).isSome ∧
        (([⟨"a", 2, 2, 2, 0⟩, ⟨"b", 0, 0, 1, 0⟩, ⟨"c", 0, 4, 1, 0⟩] : List NodeData).find?
          (fun n => n.id == e.nodeB)).isSome)) ∧
    canConnect [("b-c", ⟨"b", "c", 1⟩)] ⟨"a", 2, 2, 2, 0⟩ ⟨"a", 2, 2, 2, 0⟩
      ([⟨"a", 2, 2, 2, 0⟩, ⟨"b", 0, 0, 1, 0⟩, ⟨"c", 0, 4, 1, 0⟩] : List NodeData) = some true := by
  refine ⟨by decide, c10_canConnect_self _ _ _ (by decide)⟩

/-! ### C3: declarative characterisation of canConnect returning false -/

/-- Claim-side predicate: the two nodes are orthogonally aligned. -/
def Aligned (a b : NodeData) : Prop := a.x = b.x ∨ a.y = b.y

/-- Claim-side predicate: node o lies strictly between a and b on their
shared grid line (vertical when a.x = b.x, horizontal otherwise, matching
the branch the code takes). -/
def StrictlyBetween (a b o : NodeData) : Prop :=
  if a.x = b.x then
    o.x = a.x ∧ min a.y b.y < o.y ∧ o.y < max a.y b.y
  else
    o.y = a.y ∧ min a.x b.x < o.x ∧ o.x < max a.x b.x

/-- Claim-side predicate: the candidate segment a-b strictly crosses the
segment n1-n2: one is vertical and the other horizontal (the code
classifies the candidate as vertical exactly when a.x = b.x) and the
crossing point is interior to both open segments. -/
def StrictCross (a b n1 n2 : NodeData) : Prop :=
  if a.x = b.x then
    ¬(n1.x = n2.x) ∧ min n1.x n2.x < a.x ∧ a.x < max n1.x n2.x ∧
      min a.y b.y < n1.y ∧ n1.y < max a.y b.y
  else
    n1.x = n2.x ∧ min n1.y n2.y < a.y ∧ a.y < max n1.y n2.y ∧
      min a.x b.x < n1.x ∧ n1.x < max a.x b.x

theorem betweenHit_iff (a b o : NodeData) :
    betweenHit a b (a.x == b.x) o = true ↔ (¬(o = a ∨ o = b) ∧ StrictlyBetween a b o) := by
  unfold betweenHit StrictlyBetween
  by_cases h : o = a ∨ o = b
  · simp [h]
  · rw [if_neg h]
    by_cases hx : a.x = b.x
    · have hiv : (a.x == b.x) = true := by simp [hx]
      rw [hiv, if_pos rfl, if_pos hx, decide_eq_true_eq]
      constructor
      · intro hc; exact ⟨h, by omega⟩
      · intro hc; omega
    · have hiv : (a.x == b.x) = false := by simp [hx]
      rw [hiv, if_neg (by decide), if_neg hx, decide_eq_true_eq]
      constructor
      · intro hc; exact ⟨h, by omega⟩
      · intro hc; omega

theorem edgeBlocks_ne_none (a b : NodeData) (ns : List NodeData) (iv : Bool) (e : EdgeData)
    (h1 : (ns.find? (fun n => n.id == e.nodeA)).isSome)
    (h2 : (ns.find? (fun n => n.id == e.nodeB)).isSome) :
    edgeBlocks a b ns iv e ≠ none := by
  unfold edgeBlocks
  by_cases hs : e.nodeA = a.id ∨ e.nodeA = b.id ∨ e.nodeB = a.id ∨ e.nodeB = b.id
  · rw [if_pos hs]; exact Option.some_ne_none _
  · rw [if_neg hs]
    rcases Option.isSome_iff_exists.mp h1 with ⟨n1, hn1⟩
    rcases Option.isSome_iff_exists.mp h2 with ⟨n2, hn2⟩
    simp only [hn1, hn2]
    by_cases hc1 : (iv && !(n1.x == n2.x)) = true
    · rw [if_pos hc1]; exact Option.some_ne_none _
    · rw [if_neg hc1]
      by_cases hc2 : (!iv && (n1.x == n2.x)) = true
      · rw [if_pos hc2]; exact Option.some_ne_none _
      · rw [if_neg hc2]; exact Option.some_ne_none _

theorem edgeBlocks_true_iff (a b : NodeData) (ns : List NodeData) (e : EdgeData)
    (n1 n2 : NodeData)
    (h1 : ns.find? (fun n => n.id == e.nodeA) = some n1)
    (h2 : ns.find? (fun n => n.id == e.nodeB) = some n2) :
    edgeBlocks a b ns (a.x == b.x) e = some true ↔
      (e.nodeA ≠ a.id ∧ e.nodeA ≠ b.id ∧ e.nodeB ≠ a.id ∧ e.nodeB ≠ b.id ∧
        StrictCross a b n1 n2) := by
  unfold edgeBlocks StrictCross
  by_cases hs : e.nodeA = a.id ∨ e.nodeA = b.id ∨ e.nodeB = a.id ∨ e.nodeB = b.id
  · rw [if_pos hs]
    simp only [Option.some.injEq]
    constructor
    · intro hc; cases hc
    · intro hc; tauto
  · rw [if_neg hs]
    push_neg at hs
    simp only [h1, h2]
    by_cases hx : a.x = b.x
    · have hiv : (a.x == b.x) = true := by simp [hx]
      by_cases hev : n1.x = n2.x
      · have hb : (n1.x == n2.x) = true := by simp [hev]
        simp only [hiv, hb]
        rw [if_neg (by decide), if_neg (by decide), if_pos hx]
        simp only [Option.some.injEq]
        constructor
        · intro hc; cases hc
        · intro hc; exact absurd hev hc.2.2.2.2.1
      · have hb : (n1.x == n2.x) = false := by simp [hev]
        simp only [hiv, hb]
        rw [if_pos (by decide), if_pos hx]
        simp only [Option.some.injEq, decide_eq_true_eq]
        constructor
        · intro hc
          exact ⟨hs.1, hs.2.1, hs.2.2.1, hs.2.2.2, hev, by omega⟩
        · intro hc; omega
    · have hiv : (a.x == b.x) = false := by simp [hx]
      by_cases hev : n1.x = n2.x
      · have hb : (n1.x == n2.x) = true := by simp [hev]
        simp only [hiv, hb]
        rw [if_neg (by decide), if_pos (by decide), if_neg hx]
        simp only [Option.some.injEq, decide_eq_true_eq]
        constructor
        · intro hc
          exact ⟨hs.1, hs.2.1, hs.2.2.1, hs.2.2.2, hev, by omega⟩
        · intro hc; omega
      · have hb : (n1.x == n2.x) = false := by simp [hev]
        simp only [hiv, hb]
        rw [if_neg (by decide), if_neg (by decide), if_neg hx]
        simp only [Option.some.injEq]
        constructor
        · intro hc; cases hc
        · intro hc; exact absurd hc.2.2.2.2.1 hev

theorem crossingScan_true_iff (a b : NodeData) (ns : List NodeData) (iv : Bool)
    (l : List EdgeData)
    (hres : ∀ e ∈ l, (ns.find? (fun n => n.id == e.nodeA)).isSome ∧
      (ns.find? (fun n => n.id == e.nodeB)).isSome) :
    (crossingScan a b ns iv l ≠ none) ∧
    (crossingScan a b ns iv l = some true ↔ ∃ e ∈ l, edgeBlocks a b ns iv e = some true) := by
  induction l with
  | nil => exact ⟨Option.some_ne_none _, by simp [crossingScan]⟩
  | cons e rest ih =>
    have hre := hres e (List.mem_cons_self e rest)
    have hne := edgeBlocks_ne_none a b ns iv e hre.1 hre.2
    have ihr := ih (fun e' he' => hres e' (List.mem_cons_of_mem e he'))
    unfold crossingScan
    cases hb : edgeBlocks a b ns iv e with
    | none => exact absurd hb hne
    | some bl =>
      cases bl with
      | true =>
        refine ⟨Option.some_ne_none _, ?_⟩
        simp only [true_iff]
        exact ⟨e, List.mem_cons_self e rest, hb⟩
      | false =>
        refine ⟨ihr.1, ?_⟩
        rw [ihr.2]
        constructor
        · rintro ⟨e', he', hbe'⟩
          exact ⟨e', List.mem_cons_of_mem e he', hbe'⟩
        · rintro ⟨e', he', hbe'⟩
          rcases List.mem_cons.mp he' with rfl | hmem
          · rw [hb] at hbe'; cases hbe'
          · exact ⟨e', hmem, hbe'⟩

/-- C3: for distinct nodes a and b and a store whose entries resolve in
allNodes, canConnect returns false exactly when a and b are not aligned, or
some other node lies strictly between them on the shared grid line, or the
candidate segment strictly crosses a stored edge none of whose endpoints is
a or b (edges sharing an endpoint with the candidate are exempt). -/
theorem c3_canConnect_false_iff (m : EdgeMap) (a b : NodeData) (ns : List NodeData)
    (hab : a ≠ b)
    (hres : ∀ e ∈ edgeValues m, (ns.find? (fun n => n.id == e.nodeA)).isSome ∧
      (ns.find? (fun n => n.id == e.nodeB)).isSome) :
    canConnect m a b ns = some false ↔
      (¬ Aligned a b ∨
       (∃ o ∈ ns, ¬(o = a ∨ o = b) ∧ StrictlyBetween a b o) ∨
       (∃ e ∈ edgeValues m, e.nodeA ≠ a.id ∧ e.nodeA ≠ b.id ∧
         e.nodeB ≠ a.id ∧ e.nodeB ≠ b.id ∧
         ∃ n1 n2, ns.find? (fun n => n.id == e.nodeA) = some n1 ∧
           ns.find? (fun n => n.id == e.nodeB) = some n2 ∧ StrictCross a b n1 n2)) := by
  unfold canConnect
  by_cases halign : a.x ≠ b.x ∧ a.y ≠ b.y
  · rw [if_pos halign]
    have : ¬ Aligned a b := by
      rintro (h | h)
      · exact halign.1 h
      · exact halign.2 h
    simp [this]
  · rw [if_neg halign]
    have haligned : Aligned a b := by
      rcases not_and_or.mp halign with h | h
      · exact Or.inl (not_not.mp h)
      · exact Or.inr (not_not.mp h)
    simp only []
    by_cases hbet : ns.any (betweenHit a b (a.x == b.x))
    · rw [if_pos hbet]
      rcases List.any_eq_true.mp hbet with ⟨o, ho, hhit⟩
      have hsb := (betweenHit_iff a b o).mp hhit
      constructor
      · intro _
        exact Or.inr (Or.inl ⟨o, ho, hsb.1, hsb.2⟩)
      · intro _; rfl
    · rw [if_neg hbet]
      have hnb : ¬ (∃ o ∈ ns, ¬(o = a ∨ o = b) ∧ StrictlyBetween a b o) := by
        rintro ⟨o, ho, hno, hsb⟩
        exact hbet (List.any_eq_true.mpr ⟨o, ho, (betweenHit_iff a b o).mpr ⟨hno, hsb⟩⟩)
      cases hcs : crossingScan a b ns (a.x == b.x) (edgeValues m) with
      | none =>
        exact absurd hcs (crossingScan_true_iff a b ns (a.x == b.x) (edgeValues m) hres).1
      | some bl =>
        have hscan := (crossingScan_true_iff a b ns (a.x == b.x) (edgeValues m) hres).2
        rw [hcs] at hscan
        cases bl with
        | true =>
          rcases hscan.mp rfl with ⟨e, he, hbe⟩
          have hre := hres e he
          rcases Option.isSome_iff_exists.mp hre.1 with ⟨n1, hn1⟩
          rcases Option.isSome_iff_exists.mp hre.2 with ⟨n2, hn2⟩
          have hthis := (edgeBlocks_true_iff a b ns e n1 n2 hn1 hn2).mp hbe
          exact iff_of_true rfl (Or.inr (Or.inr ⟨e, he, hthis.1, hthis.2.1, hthis.2.2.1,
            hthis.2.2.2.1, n1, n2, hn1, hn2, hthis.2.2.2.2⟩))
        | false =>
          refine iff_of_false (fun hc => Bool.noConfusion (Option.some.inj hc)) ?_
          rintro (hna | hb2 | ⟨e, he, d1, d2, d3, d4, n1, n2, hn1, hn2, hsc⟩)
          · exact absurd haligned hna
          · exact absurd hb2 hnb
          · have hcontr := hscan.mpr ⟨e, he,
              (edgeBlocks_true_iff a b ns e n1 n2 hn1 hn2).mpr ⟨d1, d2, d3, d4, hsc⟩⟩
            cases hcontr

/-! ### C1: generate is total and falls back verbatim after 100 failures -/

theorem generateAux_all_none (f : Nat → Option Puzzle) :
    ∀ fuel k, (∀ j, k ≤ j → j < k + fuel → f j = none) →
      generateAux f fuel k = createFallbackPuzzle := by
  intro fuel
  induction fuel with
  | zero => intro k _; rfl
  | succ n ih =>
    intro k h
    unfold generateAux
    rw [h k (Nat.le_refl k) (by omega)]
    exact ih (k + 1) (fun j h1 h2 => h j (by omega) (by omega))

/-- C1: generate always returns a puzzle (it is a total function of the
difficulty and the attempt randomness), and when all 100 independent
randomized attempts fail it returns the hardcoded fallback puzzle — 4 nodes
at (1,1),(3,1),(1,3),(3,3) with requiredConnections 2 each — verbatim,
without re-validation. -/
theorem c1_generate_total_fallback (d : Difficulty) (os : Nat → GenOracle)
    (h : ∀ k < 100, tryGenerate (DIFFICULTY_SETTINGS d).gridSize
      (DIFFICULTY_SETTINGS d).nodeCountLo (DIFFICULTY_SETTINGS d).nodeCountHi
      (DIFFICULTY_SETTINGS d).maxConnections (os k) = none) :
    generate d os = createFallbackPuzzle ∧
    createFallbackPuzzle =
      ⟨[⟨"n_0", 1, 1, 2, 0⟩, ⟨"n_1", 3, 1, 2, 0⟩, ⟨"n_2", 1, 3, 2, 0⟩, ⟨"n_3", 3, 3, 2, 0⟩],
       [⟨"n_0", "n_1", 1⟩, ⟨"n_1", "n_3", 1⟩, ⟨"n_3", "n_2", 1⟩, ⟨"n_2", "n_0", 1⟩]⟩ := by
  refine ⟨?_, rfl⟩
  exact generateAux_all_none _ 100 0 (fun j _ h2 => h j (by omega))

/-- A concrete oracle whose placement draws always collide after the first
node, so every attempt fails the minimum-node-count check. -/
def zeroOracle : GenOracle :=
  ⟨0, fun _ _ => (0, 0), fun l => l, fun _ => false, fun _ => false⟩

/-- Witness for C1: with the all-colliding oracle every attempt fails and
generate returns the fallback. -/
theorem c1_generate_total_fallback_witness :
    (∀ k < 100, tryGenerate (DIFFICULTY_SETTINGS Difficulty.easy).gridSize
      (DIFFICULTY_SETTINGS Difficulty.easy).nodeCountLo
      (DIFFICULTY_SETTINGS Difficulty.easy).nodeCountHi
      (DIFFICULTY_SETTINGS Difficulty.easy).maxConnections
      ((fun _ => zeroOracle) k) = none) ∧
    (generate Difficulty.easy (fun _ => zeroOracle) = createFallbackPuzzle ∧
    createFallbackPuzzle =
      ⟨[⟨"n_0", 1, 1, 2, 0⟩, ⟨"n_1", 3, 1, 2, 0⟩, ⟨"n_2", 1, 3, 2, 0⟩, ⟨"n_3", 3, 3, 2, 0⟩],
       [⟨"n_0", "n_1", 1⟩, ⟨"n_1", "n_3", 1⟩, ⟨"n_3", "n_2", 1⟩, ⟨"n_2", "n_0", 1⟩]⟩) :=
  ⟨fun _ _ => (by decide : tryGenerate 5 6 9 4 zeroOracle = none),
    c1_generate_total_fallback Difficulty.easy _
      (fun _ _ => (by decide : tryGenerate 5 6 9 4 zeroOracle = none))⟩

/-! ### C5: crossing rejection in the spanning-tree loop only ever comes
from accepted edges endpoint-disjoint from the candidate -/

theorem linesCross_endpoint_free (u v n1 n2 : NodeData)
    (h : linesCross u v n1 n2 = true) :
    (n1.x, n1.y) ≠ (u.x, u.y) ∧ (n1.x, n1.y) ≠ (v.x, v.y) ∧
    (n2.x, n2.y) ≠ (u.x, u.y) ∧ (n2.x, n2.y) ≠ (v.x, v.y) := by
  unfold linesCross at h
  by_cases hv : (u.x == v.x) = (n1.x == n2.x)
  · rw [if_pos (by simpa using hv)] at h
    cases h
  · rw [if_neg (by simpa using hv)] at h
    by_cases huv : u.x = v.x
    · have h1 : (u.x == v.x) = true := by simp [huv]
      have h2 : (n1.x == n2.x) = false := by
        cases hx : (n1.x == n2.x) with
        | false => rfl
        | true => rw [h1, hx] at hv; exact absurd rfl hv
      have hne : ¬ (n1.x = n2.x) := by simpa using h2
      rw [h1, if_pos rfl, decide_eq_true_eq] at h
      refine ⟨?_, ?_, ?_, ?_⟩ <;>
        · intro hc
          rw [Prod.mk.injEq] at hc
          omega
    · have h1 : (u.x == v.x) = false := by simp [huv]
      have h2 : (n1.x == n2.x) = true := by
        cases hx : (n1.x == n2.x) with
        | true => rfl
        | false => rw [h1, hx] at hv; exact absurd rfl hv
      have heq : n1.x = n2.x := by simpa using h2
      rw [h1, if_neg (by decide), decide_eq_true_eq] at h
      refine ⟨?_, ?_, ?_, ?_⟩ <;>
        · intro hc
          rw [Prod.mk.injEq] at hc
          omega

theorem isCrossing_true_elim (nodes : List NodeData) (accepted : List EdgeData)
    (u v : NodeData) (h : isCrossing nodes accepted u v = some true) :
    ∃ e ∈ accepted, ∃ n1 n2,
      nodes.find? (fun n => n.id == e.nodeA) = some n1 ∧
      nodes.find? (fun n => n.id == e.nodeB) = some n2 ∧
      linesCross u v n1 n2 = true := by
  induction accepted with
  | nil => cases h
  | cons e rest ih =>
    unfold isCrossing at h
    cases h1 : nodes.find? (fun n => n.id == e.nodeA) with
    | none => rw [h1] at h; cases h
    | some n1 =>
      cases h2 : nodes.find? (fun n => n.id == e.nodeB) with
      | none => rw [h1, h2] at h; cases h
      | some n2 =>
        rw [h1, h2] at h
        have h' : (if linesCross u v n1 n2 = true then some true
            else isCrossing nodes rest u v) = some true := h
        by_cases hl : linesCross u v n1 n2 = true
        · exact ⟨e, List.mem_cons_self e rest, n1, n2, h1, h2, hl⟩
        · rw [if_neg hl] at h'
          rcases ih h' with ⟨e', he', n1', n2', hn1', hn2', hl'⟩
          exact ⟨e', List.mem_cons_of_mem e he', n1', n2', hn1', hn2', hl'⟩

/-- C5: in the Kruskal loop, a candidate whose endpoints lie in different
union-find components and which is rejected for crossing is rejected only
because some already-accepted edge both of whose endpoints are (as grid
points) distinct from the candidate's endpoints crosses it; an edge sharing
an endpoint with the candidate can never make linesCross true, so such
edges are exempt from the crossing rejection. -/
theorem c5_kruskal_reject_crossing (nodes : List NodeData) (o : GenOracle) (st : KState)
    (p : PotEdge)
    (hroots : (dsFind (st.parent.length + 1) st.parent
        (nodes.findIdx (fun n => n.id == p.u.id))).1 ≠
      (dsFind (st.parent.length + 1)
        (dsFind (st.parent.length + 1) st.parent
          (nodes.findIdx (fun n => n.id == p.u.id))).2
        (nodes.findIdx (fun n => n.id == p.v.id))).1)
    (hcross : isCrossing nodes st.edges p.u p.v = some true) :
    (kruskalStep nodes o st p).map KState.edges = some st.edges ∧
    (∃ e ∈ st.edges, ∃ n1 n2,
      nodes.find? (fun n => n.id == e.nodeA) = some n1 ∧
      nodes.find? (fun n => n.id == e.nodeB) = some n2 ∧
      linesCross p.u p.v n1 n2 = true ∧
      (n1.x, n1.y) ≠ (p.u.x, p.u.y) ∧ (n1.x, n1.y) ≠ (p.v.x, p.v.y) ∧
      (n2.x, n2.y) ≠ (p.u.x, p.u.y) ∧ (n2.x, n2.y) ≠ (p.v.x, p.v.y)) ∧
    (∀ n1 n2 : NodeData,
      ((n1.x, n1.y) = (p.u.x, p.u.y) ∨ (n1.x, n1.y) = (p.v.x, p.v.y) ∨
       (n2.x, n2.y) = (p.u.x, p.u.y) ∨ (n2.x, n2.y) = (p.v.x, p.v.y)) →
      linesCross p.u p.v n1 n2 = false) := by
  refine ⟨?_, ?_, ?_⟩
  · unfold kruskalStep
    rw [if_pos hroots, hcross]
    rfl
  · rcases isCrossing_true_elim nodes st.edges p.u p.v hcross with
      ⟨e, he, n1, n2, hn1, hn2, hl⟩
    have hfree := linesCross_endpoint_free p.u p.v n1 n2 hl
    exact ⟨e, he, n1, n2, hn1, hn2, hl, hfree.1, hfree.2.1, hfree.2.2.1, hfree.2.2.2⟩
  · intro n1 n2 hshare
    cases hl : linesCross p.u p.v n1 n2 with
    | false => rfl
    | true =>
      have hfree := linesCross_endpoint_free p.u p.v n1 n2 hl
      rcases hshare with hc | hc | hc | hc
      · exact absurd hc hfree.1
      · exact absurd hc hfree.2.1
      · exact absurd hc hfree.2.2.1
      · exact absurd hc hfree.2.2.2

/-- Witness for C5: a concrete vertical candidate crossing one accepted
horizontal edge. -/
theorem c5_kruskal_reject_crossing_witness :
    ((dsFind (([0, 1, 2, 3] : List Nat).length + 1) [0, 1, 2, 3]
        (([⟨"p", 0, 1, 1, 0⟩, ⟨"q", 2, 1, 1, 0⟩, ⟨"u", 1, 0, 1, 0⟩, ⟨"v", 1, 2, 1, 0⟩] :
          List NodeData).findIdx
          (fun n => n.id == (⟨"u", 1, 0, 1, 0⟩ : NodeData).id))).1 ≠
      (dsFind (([0, 1, 2, 3] : List Nat).length + 1)
        (dsFind (([0, 1, 2, 3] : List Nat).length + 1) [0, 1, 2, 3]
          (([⟨"p", 0, 1, 1, 0⟩, ⟨"q", 2, 1, 1, 0⟩, ⟨"u", 1, 0, 1, 0⟩, ⟨"v", 1, 2, 1, 0⟩] :
            List NodeData).findIdx
            (fun n => n.id == (⟨"u", 1, 0, 1, 0⟩ : NodeData).id))).2
        (([⟨"p", 0, 1, 1, 0⟩, ⟨"q", 2, 1, 1, 0⟩, ⟨"u", 1, 0, 1, 0⟩, ⟨"v", 1, 2, 1, 0⟩] :
          List NodeData).findIdx
          (fun n => n.id == (⟨"v", 1, 2, 1, 0⟩ : NodeData).id))).1) ∧
    isCrossing [⟨"p", 0, 1, 1, 0⟩, ⟨"q", 2, 1, 1, 0⟩, ⟨"u", 1, 0, 1, 0⟩, ⟨"v", 1, 2, 1, 0⟩]
      [⟨"p", "q", 1⟩] ⟨"u", 1, 0, 1, 0⟩ ⟨"v", 1, 2, 1, 0⟩ = some true ∧
    (kruskalStep [⟨"p", 0, 1, 1, 0⟩, ⟨"q", 2, 1, 1, 0⟩, ⟨"u", 1, 0, 1, 0⟩, ⟨"v", 1, 2, 1, 0⟩]
        zeroOracle ⟨[⟨"p", "q", 1⟩], [0, 1, 2, 3], 3⟩
        ⟨⟨"u", 1, 0, 1, 0⟩, ⟨"v", 1, 2, 1, 0⟩, 2⟩).map KState.edges =
      some [⟨"p", "q", 1⟩] := by
  refine ⟨by decide, by decide, ?_⟩
  exact (c5_kruskal_reject_crossing
    [⟨"p", 0, 1, 1, 0⟩, ⟨"q", 2, 1, 1, 0⟩, ⟨"u", 1, 0, 1, 0⟩, ⟨"v", 1, 2, 1, 0⟩]
    zeroOracle ⟨[⟨"p", "q", 1⟩], [0, 1, 2, 3], 3⟩
    ⟨⟨"u", 1, 0, 1, 0⟩, ⟨"v", 1, 2, 1, 0⟩, 2⟩ (by decide) (by decide)).1

/-- Witness for C3 at concrete aligned nodes over an empty store. -/
theorem c3_canConnect_false_iff_witness :
    ((⟨"a", 0, 0, 1, 0⟩ : NodeData) ≠ ⟨"b", 2, 0, 1, 0⟩) ∧
    (∀ e ∈ edgeValues ([] : EdgeMap),
      ((([⟨"a", 0, 0, 1, 0⟩, ⟨"b", 2, 0, 1, 0⟩] : List NodeData).find?
          (fun n => n.id == e.nodeA)).isSome ∧
        (([⟨"a", 0, 0, 1, 0⟩, ⟨"b", 2, 0, 1, 0⟩] : List NodeData).find?
          (fun n => n.id == e.nodeB)).isSome)) ∧
    (canConnect [] ⟨"a", 0, 0, 1, 0⟩ ⟨"b", 2, 0, 1, 0⟩
        ([⟨"a", 0, 0, 1, 0⟩, ⟨"b", 2, 0, 1, 0⟩] : List NodeData) = some false ↔
      (¬ Aligned ⟨"a", 0, 0, 1, 0⟩ ⟨"b", 2, 0, 1, 0⟩ ∨
       (∃ o ∈ ([⟨"a", 0, 0, 1, 0⟩, ⟨"b", 2, 0, 1, 0⟩] : List NodeData),
         ¬(o = ⟨"a", 0, 0, 1, 0⟩ ∨ o = ⟨"b", 2, 0, 1, 0⟩) ∧
         StrictlyBetween ⟨"a", 0, 0, 1, 0⟩ ⟨"b", 2, 0, 1, 0⟩ o) ∨
       (∃ e ∈ edgeValues ([] : EdgeMap),
         e.nodeA ≠ (⟨"a", 0, 0, 1, 0⟩ : NodeData).id ∧
         e.nodeA ≠ (⟨"b", 2, 0, 1, 0⟩ : NodeData).id ∧
         e.nodeB ≠ (⟨"a", 0, 0, 1, 0⟩ : NodeData).id ∧
         e.nodeB ≠ (⟨"b", 2, 0, 1, 0⟩ : NodeData).id ∧
         ∃ n1 n2,
           ([⟨"a", 0, 0, 1, 0⟩, ⟨"b", 2, 0, 1, 0⟩] : List NodeData).find?
             (fun n => n.id == e.nodeA) = some n1 ∧
           ([⟨"a", 0, 0, 1, 0⟩, ⟨"b", 2, 0, 1, 0⟩] : List NodeData).find?
             (fun n => n.id == e.nodeB) = some n2 ∧
           StrictCross ⟨"a", 0, 0, 1, 0⟩ ⟨"b", 2, 0, 1, 0⟩ n1 n2))) :=
  ⟨by decide, by simp [edgeValues],
    c3_canConnect_false_iff [] ⟨"a", 0, 0, 1, 0⟩ ⟨"b", 2, 0, 1, 0⟩
      ([⟨"a", 0, 0, 1, 0⟩, ⟨"b", 2, 0, 1, 0⟩] : List NodeData)
      (by decide) (by simp [edgeValues])⟩

/-! ### C4: degree bounds on every puzzle generate returns -/

theorem mkId_inj_lt (i j : Nat) (hi : i < 18) (hj : j < 18)
    (h : "n_" ++ Nat.repr i = "n_" ++ Nat.repr j) : i = j := by
  have hd : ∀ i' < 18, ∀ j' < 18, ("n_" ++ Nat.repr i' = "n_" ++ Nat.repr j') → i' = j' := by
    decide
  exact hd i hi j hj h

theorem placeNodes_succ (g : Nat) (o : GenOracle) (k : Nat) :
    placeNodes g o (k + 1) =
      match placeNodeAux g (o.placeRand k) ((placeNodes g o k).map (fun n => (n.x, n.y))) 50 0 with
      | some cell => placeNodes g o k ++ [⟨"n_" ++ Nat.repr k, cell.1, cell.2, 0, 0⟩]
      | none => placeNodes g o k := by
  unfold placeNodes
  rw [List.range_succ, List.foldl_append, List.foldl_cons, List.foldl_nil]

theorem placeNodes_ids (g : Nat) (o : GenOracle) :
    ∀ numNodes, ∀ n ∈ placeNodes g o numNodes,
      ∃ i, i < numNodes ∧ n.id = "n_" ++ Nat.repr i := by
  intro numNodes
  induction numNodes with
  | zero => intro n hn; simp [placeNodes] at hn
  | succ k ih =>
    intro n hn
    rw [placeNodes_succ] at hn
    cases hp : placeNodeAux g (o.placeRand k)
        ((placeNodes g o k).map (fun n => (n.x, n.y))) 50 0 with
    | none =>
      rw [hp] at hn
      rcases ih n hn with ⟨i, hi, hid⟩
      exact ⟨i, by omega, hid⟩
    | some cell =>
      rw [hp] at hn
      rcases List.mem_append.mp hn with h1 | h2
      · rcases ih n h1 with ⟨i, hi, hid⟩
        exact ⟨i, by omega, hid⟩
      · rw [List.mem_singleton] at h2
        exact ⟨k, by omega, by rw [h2]⟩

theorem placeNodes_ids_nodup (g : Nat) (o : GenOracle) :
    ∀ numNodes, numNodes ≤ 18 → ((placeNodes g o numNodes).map NodeData.id).Nodup := by
  intro numNodes
  induction numNodes with
  | zero => intro _; simp [placeNodes]
  | succ k ih =>
    intro hk
    rw [placeNodes_succ]
    cases hp : placeNodeAux g (o.placeRand k)
        ((placeNodes g o k).map (fun n => (n.x, n.y))) 50 0 with
    | none => exact ih (by omega)
    | some cell =>
      rw [List.map_append]
      refine List.Nodup.append (ih (by omega)) (List.nodup_singleton _) ?_
      intro x hx hx'
      simp only [List.map_cons, List.map_nil, List.mem_singleton] at hx'
      rcases List.mem_map.mp hx with ⟨nd, hnd, hnid⟩
      rcases placeNodes_ids g o k nd hnd with ⟨i, hi, hid⟩
      have hik : i = k := by
        refine mkId_inj_lt i k (by omega) (by omega) ?_
        rw [← hid, hnid, hx']
      omega

theorem upperPairs_id_ne :
    ∀ (l : List NodeData), (l.map NodeData.id).Nodup →
      ∀ p ∈ upperPairs l, p.1.id ≠ p.2.id := by
  intro l
  induction l with
  | nil => intro _ p hp; simp [upperPairs] at hp
  | cons n rest ih =>
    intro hnd p hp
    rw [List.map_cons, List.nodup_cons] at hnd
    unfold upperPairs at hp
    rcases List.mem_append.mp hp with h1 | h2
    · rcases List.mem_map.mp h1 with ⟨mnode, hm, rfl⟩
      intro hc
      exact hnd.1 (by rw [hc]; exact List.mem_map.mpr ⟨mnode, hm, rfl⟩)
    · exact ih hnd.2 p h2

theorem potentialEdges_id_ne (nodes : List NodeData)
    (h : (nodes.map NodeData.id).Nodup) :
    ∀ p ∈ potentialEdges nodes, p.u.id ≠ p.v.id := by
  intro p hp
  unfold potentialEdges at hp
  rcases List.mem_map.mp hp with ⟨q, hq, rfl⟩
  exact upperPairs_id_ne nodes h q (List.mem_filter.mp hq).1

theorem foldlM_option_invariant {α β : Type} (f : α → β → Option α) (P : α → Prop)
    (Q : β → Prop) :
    ∀ (l : List β), (∀ b ∈ l, Q b) →
      (∀ a b a', P a → Q b → f a b = some a' → P a') →
      ∀ init res, P init → l.foldlM f init = some res → P res := by
  intro l
  induction l with
  | nil =>
    intro _ _ init res hP hfold
    rw [List.foldlM_nil] at hfold
    cases hfold
    exact hP
  | cons b bs ih =>
    intro hQ hstep init res hP hfold
    rw [List.foldlM_cons] at hfold
    rcases Option.bind_eq_some.mp hfold with ⟨a', hfa, hrest⟩
    exact ih (fun x hx => hQ x (List.mem_cons_of_mem b hx)) hstep a' res
      (hstep init b a' hP (hQ b (List.mem_cons_self b bs)) hfa) hrest

theorem kruskalStep_edges_ok (nodes : List NodeData) (o : GenOracle)
    (st : KState) (p : PotEdge) (st' : KState)
    (hP : ∀ e ∈ st.edges, e.nodeA ≠ e.nodeB) (hQ : p.u.id ≠ p.v.id)
    (h : kruskalStep nodes o st p = some st') :
    ∀ e ∈ st'.edges, e.nodeA ≠ e.nodeB := by
  unfold kruskalStep at h
  split at h
  all_goals try simp only [] at h
  all_goals try split at h
  case h_1.isTrue => cases h
  case h_1.isFalse =>
    injection h with h'
    subst h'
    exact hP
  case h_2.isTrue =>
    injection h with h'
    subst h'
    exact hP
  case h_2.isFalse =>
    injection h with h'
    subst h'
    exact hP
  case h_3.isTrue =>
    injection h with h'
    subst h'
    intro e he
    rcases List.mem_append.mp he with h1 | h2
    · exact hP e h1
    · rw [List.mem_singleton] at h2
      subst h2
      exact hQ
  case h_3.isFalse =>
    injection h with h'
    subst h'
    exact hP

theorem extraStep_edges_ok (nodes : List NodeData) (o : GenOracle) (target : Nat)
    (st : List EdgeData × Nat) (p : PotEdge) (st' : List EdgeData × Nat)
    (hP : ∀ e ∈ st.1, e.nodeA ≠ e.nodeB) (hQ : p.u.id ≠ p.v.id)
    (h : extraStep nodes o target st p = some st') :
    ∀ e ∈ st'.1, e.nodeA ≠ e.nodeB := by
  unfold extraStep at h
  split at h
  all_goals try simp only [] at h
  all_goals try split at h
  all_goals try split at h
  case isTrue =>
    injection h with h'
    subst h'
    exact hP
  case isFalse.isTrue =>
    injection h with h'
    subst h'
    exact hP
  case isFalse.isFalse.h_1 => cases h
  case isFalse.isFalse.h_2 =>
    injection h with h'
    subst h'
    exact hP
  case isFalse.isFalse.h_3 =>
    injection h with h'
    subst h'
    intro e he
    rcases List.mem_append.mp he with h1 | h2
    · exact hP e h1
    · rw [List.mem_singleton] at h2
      subst h2
      exact hQ

theorem mem_bumpReq :
    ∀ (ns : List NodeData) (i : String) (c : Nat), ∀ x ∈ bumpReq ns i c,
      x ∈ ns ∨ ∃ y, ns.find? (fun n => n.id == i) = some y ∧
        x = { y with requiredConnections := y.requiredConnections + c } := by
  intro ns i c
  induction ns with
  | nil => intro x hx; cases hx
  | cons n rest ih =>
    intro x hx
    unfold bumpReq at hx
    by_cases hn : n.id = i
    · rw [if_pos hn] at hx
      rcases List.mem_cons.mp hx with rfl | hmem
      · right
        exact ⟨n, by rw [List.find?_cons_of_pos _ (by simp [hn])], rfl⟩
      · left; exact List.mem_cons_of_mem n hmem
    · rw [if_neg hn] at hx
      rcases List.mem_cons.mp hx with rfl | hmem
      · left; exact List.mem_cons_self _ _
      · rcases ih x hmem with h1 | ⟨y, hy, hxy⟩
        · left; exact List.mem_cons_of_mem n h1
        · right
          refine ⟨y, ?_, hxy⟩
          rw [List.find?_cons_of_neg _ (by simp [hn])]
          exact hy

theorem bumpReq_find?_ne :
    ∀ (ns : List NodeData) (i : String) (c : Nat) (j : String), j ≠ i →
      (bumpReq ns i c).find? (fun n => n.id == j) = ns.find? (fun n => n.id == j) := by
  intro ns i c j hji
  induction ns with
  | nil => rfl
  | cons n rest ih =>
    unfold bumpReq
    by_cases hn : n.id = i
    · rw [if_pos hn]
      rw [List.find?_cons_of_neg _ (by simp [hn]; exact fun hc => hji hc.symm),
          List.find?_cons_of_neg _ (by simp [hn]; exact fun hc => hji hc.symm)]
    · rw [if_neg hn]
      by_cases hj : n.id = j
      · rw [List.find?_cons_of_pos _ (by simp [hj]), List.find?_cons_of_pos _ (by simp [hj])]
      · rw [List.find?_cons_of_neg _ (by simp [hj]), List.find?_cons_of_neg _ (by simp [hj])]
        exact ih

theorem pruneStep_bound (maxC : Nat) (st : List NodeData × List EdgeData) (e : EdgeData)
    (st' : List NodeData × List EdgeData)
    (hP : ∀ n ∈ st.1, n.requiredConnections ≤ maxC) (hQ : e.nodeA ≠ e.nodeB)
    (h : pruneStep maxC st e = some st') :
    ∀ n ∈ st'.1, n.requiredConnections ≤ maxC := by
  unfold pruneStep at h
  cases hA : st.1.find? (fun n => n.id == e.nodeA) with
  | none => rw [hA] at h; cases h
  | some nA =>
    cases hB : st.1.find? (fun n => n.id == e.nodeB) with
    | none => rw [hA, hB] at h; cases h
    | some nB =>
      rw [hA, hB] at h
      have h' : (if nA.requiredConnections + e.count ≤ maxC ∧
          nB.requiredConnections + e.count ≤ maxC then
            some (bumpReq (bumpReq st.1 e.nodeA e.count) e.nodeB e.count, st.2 ++ [e])
          else some st) = some st' := h
      by_cases hcond : nA.requiredConnections + e.count ≤ maxC ∧
          nB.requiredConnections + e.count ≤ maxC
      · rw [if_pos hcond] at h'
        injection h' with h''
        subst h''
        intro n hn
        rcases mem_bumpReq _ _ _ n hn with h1 | ⟨y, hy, hny⟩
        · rcases mem_bumpReq _ _ _ n h1 with h2 | ⟨y, hy, hny⟩
          · exact hP n h2
          · rw [hA] at hy
            injection hy with hy'
            subst hy'
            subst hny
            simpa using hcond.1
        · rw [bumpReq_find?_ne st.1 e.nodeA e.count e.nodeB (fun hc => hQ hc.symm), hB] at hy
          injection hy with hy'
          subst hy'
          subst hny
          simpa using hcond.2
      · rw [if_neg hcond] at h'
        injection h' with h''
        subst h''
        exact hP

theorem tryGenerate_bounds (gridSize nodeLo nodeHi maxC : Nat) (o : GenOracle)
    (hsh : ∀ l, (o.shuffle l).Perm l) (hhi : nodeHi ≤ 18) (hlo : nodeLo ≤ 18)
    (pz : Puzzle) (h : tryGenerate gridSize nodeLo nodeHi maxC o = some pz) :
    ∀ n ∈ pz.nodes, 1 ≤ n.requiredConnections ∧ n.requiredConnections ≤ maxC := by
  have hnn : nodeLo + o.numNodesRand % (nodeHi - nodeLo + 1) ≤ 18 := by
    have hm := Nat.mod_lt o.numNodesRand (show 0 < nodeHi - nodeLo + 1 by omega)
    omega
  have hnodup : ((placeNodes gridSize o
      (nodeLo + o.numNodesRand % (nodeHi - nodeLo + 1))).map NodeData.id).Nodup :=
    placeNodes_ids_nodup gridSize o _ hnn
  unfold tryGenerate at h
  try simp only [] at h
  generalize hN : placeNodes gridSize o (nodeLo + o.numNodesRand % (nodeHi - nodeLo + 1))
    = nodes at h
  rw [hN] at hnodup
  have hQs : ∀ p ∈ o.shuffle (potentialEdges nodes), p.u.id ≠ p.v.id := by
    intro p hp
    exact potentialEdges_id_ne nodes hnodup p ((hsh (potentialEdges nodes)).mem_iff.mp hp)
  split at h
  · cases h
  · cases hst : (o.shuffle (potentialEdges nodes)).foldlM (kruskalStep nodes o)
        ⟨[], List.range nodes.length, nodes.length⟩ with
    | none => rw [hst] at h; cases h
    | some st =>
      rw [hst] at h
      have hkOk : ∀ e ∈ st.edges, e.nodeA ≠ e.nodeB := by
        refine foldlM_option_invariant (kruskalStep nodes o)
          (fun s => ∀ e ∈ s.edges, e.nodeA ≠ e.nodeB) (fun p => p.u.id ≠ p.v.id)
          _ hQs ?_ _ _ ?_ hst
        · intro a b a' hPa hQb hf
          exact kruskalStep_edges_ok nodes o a b a' hPa hQb hf
        · intro e he
          cases he
      have h1 : (if st.count > 1 then none
          else (o.shuffle (potentialEdges nodes)).foldlM
              (extraStep nodes o (st.edges.length * 3 / 10)) (st.edges, 0) >>= fun ex =>
            ex.1.foldlM (pruneStep maxC)
              (nodes.map (fun n => { n with requiredConnections := 0 }), []) >>= fun pruned =>
            if pruned.1.any (fun n => n.requiredConnections == 0) then none
            else some ⟨pruned.1, pruned.2⟩) = some pz := h
      split at h1
      · cases h1
      · cases hex : (o.shuffle (potentialEdges nodes)).foldlM
            (extraStep nodes o (st.edges.length * 3 / 10)) (st.edges, 0) with
        | none => rw [hex] at h1; cases h1
        | some ex =>
          rw [hex] at h1
          have hexOk : ∀ e ∈ ex.1, e.nodeA ≠ e.nodeB := by
            refine foldlM_option_invariant (extraStep nodes o (st.edges.length * 3 / 10))
              (fun s => ∀ e ∈ s.1, e.nodeA ≠ e.nodeB) (fun p => p.u.id ≠ p.v.id)
              _ hQs ?_ _ _ ?_ hex
            · intro a b a' hPa hQb hf
              exact extraStep_edges_ok nodes o _ a b a' hPa hQb hf
            · exact hkOk
          have h2 : (ex.1.foldlM (pruneStep maxC)
              (nodes.map (fun n => { n with requiredConnections := 0 }), []) >>= fun pruned =>
            if pruned.1.any (fun n => n.requiredConnections == 0) then none
            else some ⟨pruned.1, pruned.2⟩) = some pz := h1
          cases hpr : ex.1.foldlM (pruneStep maxC)
              (nodes.map (fun n => { n with requiredConnections := 0 }), []) with
          | none => rw [hpr] at h2; cases h2
          | some pruned =>
            rw [hpr] at h2
            have hbound : ∀ n ∈ pruned.1, n.requiredConnections ≤ maxC := by
              refine foldlM_option_invariant (pruneStep maxC)
                (fun s => ∀ n ∈ s.1, n.requiredConnections ≤ maxC)
                (fun e => e.nodeA ≠ e.nodeB) _ hexOk ?_ _ _ ?_ hpr
              · intro a b a' hPa hQb hf
                exact pruneStep_bound maxC a b a' hPa hQb hf
              · intro n hn
                rcases List.mem_map.mp hn with ⟨y, _, rfl⟩
                simp
            have h3 : (if pruned.1.any (fun n => n.requiredConnections == 0) then none
                else some (⟨pruned.1, pruned.2⟩ : Puzzle)) = some pz := h2
            split at h3
            · cases h3
            · injection h3 with h4
              subst h4
              intro n hn
              refine ⟨?_, hbound n hn⟩
              rename_i hany
              have hfalse : pruned.1.any (fun n => n.requiredConnections == 0) = false := by
                cases hx : pruned.1.any (fun n => n.requiredConnections == 0) with
                | false => rfl
                | true => exact absurd hx hany
              have hne := List.any_eq_false.mp hfalse n hn
              simp only [beq_iff_eq] at hne
              omega

theorem generateAux_mem (f : Nat → Option Puzzle) :
    ∀ fuel k, generateAux f fuel k = createFallbackPuzzle ∨
      ∃ j, f j = some (generateAux f fuel k) := by
  intro fuel
  induction fuel with
  | zero => intro k; exact Or.inl rfl
  | succ n ih =>
    intro k
    unfold generateAux
    cases hf : f k with
    | some p => exact Or.inr ⟨k, by rw [hf]⟩
    | none => exact ih (k + 1)

/-- C4: every puzzle generate returns — the fallback included — gives every
node a requiredConnections of at least 1 and at most the tier's
maxConnections: the degree-pruning step accepts an edge only when adding
its count keeps both endpoints at or below maxConnections, and an attempt
ending with a node at requiredConnections 0 is aborted.  The shuffle oracle
is assumed to permute its input, as Array.prototype.sort does. -/
theorem c4_generate_degree_bounds (d : Difficulty) (os : Nat → GenOracle)
    (hsh : ∀ k l, ((os k).shuffle l).Perm l) :
    ∀ n ∈ (generate d os).nodes,
      1 ≤ n.requiredConnections ∧
      n.requiredConnections ≤ (DIFFICULTY_SETTINGS d).maxConnections := by
  intro n hn
  unfold generate at hn
  try simp only [] at hn
  rcases generateAux_mem (fun k => tryGenerate (DIFFICULTY_SETTINGS d).gridSize
      (DIFFICULTY_SETTINGS d).nodeCountLo (DIFFICULTY_SETTINGS d).nodeCountHi
      (DIFFICULTY_SETTINGS d).maxConnections (os k)) 100 0 with hfb | ⟨j, hj⟩
  · rw [hfb] at hn
    simp only [createFallbackPuzzle, List.mem_cons, List.not_mem_nil, or_false] at hn
    have h2 : n.requiredConnections = 2 := by
      rcases hn with rfl | rfl | rfl | rfl <;> rfl
    rw [h2]
    cases d <;> exact ⟨by omega, by decide⟩
  · exact tryGenerate_bounds _ _ _ _ _ (hsh j)
      (by cases d <;> decide) (by cases d <;> decide) _ hj n hn

/-- Witness for C4 with the identity-shuffle all-colliding oracle (its
attempts all fail, so the bound is exercised on the fallback). -/
theorem c4_generate_degree_bounds_witness :
    (∀ (k : Nat) (l : List PotEdge), (((fun _ => zeroOracle) k).shuffle l).Perm l) ∧
    (∀ n ∈ (generate Difficulty.easy (fun _ => zeroOracle)).nodes,
      1 ≤ n.requiredConnections ∧
      n.requiredConnections ≤ (DIFFICULTY_SETTINGS Difficulty.easy).maxConnections) :=
  ⟨fun _ l => List.Perm.refl l,
    c4_generate_degree_bounds Difficulty.easy (fun _ => zeroOracle)
      (fun _ l => List.Perm.refl l)⟩


/-! ### Degree recomputation: characterisation via incident multiplicities -/

/-- Claim-side degree: the sum of the multiplicities of the edges incident
to id i (a self-loop entry counts twice, as in the code). -/
def incidentDegree (edges : List EdgeData) (i : String) : Nat :=
  (edges.map (fun e => (if e.nodeA = i then e.count else 0) +
    (if e.nodeB = i then e.count else 0))).sum

theorem bumpCurrent_id_map (ns : List NodeData) (i : String) (c : Nat) :
    (bumpCurrent ns i c).map NodeData.id = ns.map NodeData.id := by
  induction ns with
  | nil => rfl
  | cons n rest ih =>
    unfold bumpCurrent
    by_cases hn : n.id = i
    · rw [if_pos hn]
      simp
    · rw [if_neg hn]
      simp only [List.map_cons]
      rw [ih]

theorem bumpCurrent_find?_self (ns : List NodeData) (i : String) (c : Nat) :
    (bumpCurrent ns i c).find? (fun n => n.id == i) =
      (ns.find? (fun n => n.id == i)).map
        (fun n => { n with currentConnections := n.currentConnections + c }) := by
  induction ns with
  | nil => rfl
  | cons n rest ih =>
    unfold bumpCurrent
    by_cases hn : n.id = i
    · rw [if_pos hn, List.find?_cons_of_pos _ (by simp [hn]),
        List.find?_cons_of_pos _ (by simp [hn])]
      rfl
    · rw [if_neg hn, List.find?_cons_of_neg _ (by simp [hn]),
        List.find?_cons_of_neg _ (by simp [hn])]
      exact ih

theorem bumpCurrent_find?_ne (ns : List NodeData) (i : String) (c : Nat) (j : String)
    (h : j ≠ i) :
    (bumpCurrent ns i c).find? (fun n => n.id == j) = ns.find? (fun n => n.id == j) := by
  induction ns with
  | nil => rfl
  | cons n rest ih =>
    unfold bumpCurrent
    by_cases hn : n.id = i
    · rw [if_pos hn]
      rw [List.find?_cons_of_neg _ (by simp [hn]; exact fun hc => h hc.symm),
          List.find?_cons_of_neg _ (by simp [hn]; exact fun hc => h hc.symm)]
    · rw [if_neg hn]
      by_cases hj : n.id = j
      · rw [List.find?_cons_of_pos _ (by simp [hj]), List.find?_cons_of_pos _ (by simp [hj])]
      · rw [List.find?_cons_of_neg _ (by simp [hj]), List.find?_cons_of_neg _ (by simp [hj])]
        exact ih

theorem find?_id_isSome_eq (ns ms : List NodeData)
    (h : ns.map NodeData.id = ms.map NodeData.id) (i : String) :
    (ns.find? (fun n => n.id == i)).isSome = (ms.find? (fun n => n.id == i)).isSome := by
  have hiff : (∃ x ∈ ns, x.id = i) ↔ (∃ x ∈ ms, x.id = i) := by
    constructor
    · rintro ⟨x, hx, hxi⟩
      have : i ∈ ms.map NodeData.id := by rw [← h]; exact List.mem_map.mpr ⟨x, hx, hxi⟩
      rcases List.mem_map.mp this with ⟨y, hy, hyi⟩
      exact ⟨y, hy, hyi⟩
    · rintro ⟨x, hx, hxi⟩
      have : i ∈ ns.map NodeData.id := by rw [h]; exact List.mem_map.mpr ⟨x, hx, hxi⟩
      rcases List.mem_map.mp this with ⟨y, hy, hyi⟩
      exact ⟨y, hy, hyi⟩
  cases hns : (ns.find? (fun n => n.id == i)).isSome with
  | true =>
    rcases Option.isSome_iff_exists.mp hns with ⟨x, hx⟩
    have hmem := List.find?_some hx
    have hxin := List.mem_of_find?_eq_some hx
    have : ∃ x ∈ ms, x.id = i := hiff.mp ⟨x, hxin, by simpa using hmem⟩
    rcases this with ⟨y, hy, hyi⟩
    have : (ms.find? (fun n => n.id == i)).isSome := by
      rw [List.find?_isSome]
      exact ⟨y, hy, by simpa using hyi⟩
    rw [this]
  | false =>
    cases hms : (ms.find? (fun n => n.id == i)).isSome with
    | false => rfl
    | true =>
      rcases Option.isSome_iff_exists.mp hms with ⟨x, hx⟩
      have hmem := List.find?_some hx
      have hxin := List.mem_of_find?_eq_some hx
      have hex : ∃ x ∈ ns, x.id = i := hiff.mpr ⟨x, hxin, by simpa using hmem⟩
      rcases hex with ⟨y, hy, hyi⟩
      have : (ns.find? (fun n => n.id == i)).isSome := by
        rw [List.find?_isSome]
        exact ⟨y, hy, by simpa using hyi⟩
      rw [this] at hns
      cases hns

theorem recomputeCounts_append (houses : List NodeData) (es : List EdgeData) (e : EdgeData) :
    recomputeCounts houses (es ++ [e]) =
      (let hs := recomputeCounts houses es
       let hs1 := if (hs.find? (fun h => h.id == e.nodeA)).isSome
         then bumpCurrent hs e.nodeA e.count else hs
       if (hs1.find? (fun h => h.id == e.nodeB)).isSome
         then bumpCurrent hs1 e.nodeB e.count else hs1) := by
  unfold recomputeCounts
  rw [List.foldl_append, List.foldl_cons, List.foldl_nil]

theorem recomputeCounts_id_map (houses : List NodeData) (edges : List EdgeData) :
    (recomputeCounts houses edges).map NodeData.id = houses.map NodeData.id := by
  induction edges using List.reverseRecOn with
  | nil =>
    unfold recomputeCounts
    rw [List.foldl_nil, List.map_map]
    rfl
  | append_singleton es e ih =>
    rw [recomputeCounts_append]
    simp only []
    by_cases hA : ((recomputeCounts houses es).find? (fun h => h.id == e.nodeA)).isSome
    · rw [if_pos hA]
      by_cases hB : ((bumpCurrent (recomputeCounts houses es) e.nodeA e.count).find?
          (fun h => h.id == e.nodeB)).isSome
      · rw [if_pos hB, bumpCurrent_id_map, bumpCurrent_id_map, ih]
      · rw [if_neg hB, bumpCurrent_id_map, ih]
    · rw [if_neg hA]
      by_cases hB : ((recomputeCounts houses es).find? (fun h => h.id == e.nodeB)).isSome
      · rw [if_pos hB, bumpCurrent_id_map, ih]
      · rw [if_neg hB, ih]

theorem incidentDegree_append (es : List EdgeData) (e : EdgeData) (i : String) :
    incidentDegree (es ++ [e]) i = incidentDegree es i +
      ((if e.nodeA = i then e.count else 0) + (if e.nodeB = i then e.count else 0)) := by
  unfold incidentDegree
  rw [List.map_append, List.sum_append]
  simp

theorem recomputeCounts_find? (houses : List NodeData) (edges : List EdgeData) (i : String) :
    (recomputeCounts houses edges).find? (fun n => n.id == i) =
      (houses.find? (fun n => n.id == i)).map
        (fun n => { n with currentConnections := incidentDegree edges i }) := by
  induction edges using List.reverseRecOn with
  | nil =>
    unfold recomputeCounts
    rw [List.foldl_nil, List.find?_map]
    rfl
  | append_singleton es e ih =>
    rw [recomputeCounts_append]
    simp only []
    rw [incidentDegree_append]
    by_cases hiA : e.nodeA = i
    · subst hiA
      by_cases hiB : e.nodeB = e.nodeA
      · -- both endpoints are i
        rw [if_pos (Eq.refl e.nodeA), if_pos hiB, hiB]
        by_cases hgA : ((recomputeCounts houses es).find? (fun h => h.id == e.nodeA)).isSome
        · rw [if_pos hgA]
          have hgB : ((bumpCurrent (recomputeCounts houses es) e.nodeA e.count).find?
              (fun h => h.id == e.nodeA)).isSome = true := by
            rw [find?_id_isSome_eq _ _ (bumpCurrent_id_map _ _ _) e.nodeA]
            exact hgA
          rw [if_pos hgB, bumpCurrent_find?_self, bumpCurrent_find?_self, ih,
            Option.map_map, Option.map_map]
          cases houses.find? (fun n => n.id == e.nodeA) with
          | none => rfl
          | some n0 =>
            simp only [Option.map_some', Function.comp_apply]
            simp only [Option.some.injEq, NodeData.mk.injEq, true_and]
            all_goals omega
        · rw [if_neg hgA, if_neg hgA]
          have hnone : (recomputeCounts houses es).find? (fun n => n.id == e.nodeA) = none :=
            Option.not_isSome_iff_eq_none.mp hgA
          have hhn : houses.find? (fun n => n.id == e.nodeA) = none := by
            rw [ih] at hnone
            cases hh : houses.find? (fun n => n.id == e.nodeA) with
            | none => rfl
            | some n0 =>
              rw [hh] at hnone
              exact Option.noConfusion hnone
          rw [hnone, hhn]
          rfl
      · -- only nodeA is i
        rw [if_pos (Eq.refl e.nodeA), if_neg hiB]
        by_cases hgA : ((recomputeCounts houses es).find? (fun h => h.id == e.nodeA)).isSome
        · rw [if_pos hgA]
          by_cases hgB2 : ((bumpCurrent (recomputeCounts houses es) e.nodeA e.count).find?
              (fun h => h.id == e.nodeB)).isSome
          · rw [if_pos hgB2,
              bumpCurrent_find?_ne _ _ _ e.nodeA (fun hc => hiB hc.symm),
              bumpCurrent_find?_self, ih, Option.map_map]
            cases houses.find? (fun n => n.id == e.nodeA) with
            | none => rfl
            | some n0 =>
              simp only [Option.map_some', Function.comp_apply]
              simp only [Option.some.injEq, NodeData.mk.injEq, true_and]
              all_goals omega
          · rw [if_neg hgB2, bumpCurrent_find?_self, ih, Option.map_map]
            cases houses.find? (fun n => n.id == e.nodeA) with
            | none => rfl
            | some n0 =>
              simp only [Option.map_some', Function.comp_apply]
              simp only [Option.some.injEq, NodeData.mk.injEq, true_and]
              all_goals omega
        · rw [if_neg hgA]
          have hnone : (recomputeCounts houses es).find? (fun n => n.id == e.nodeA) = none :=
            Option.not_isSome_iff_eq_none.mp hgA
          have hhn : houses.find? (fun n => n.id == e.nodeA) = none := by
            rw [ih] at hnone
            cases hh : houses.find? (fun n => n.id == e.nodeA) with
            | none => rfl
            | some n0 =>
              rw [hh] at hnone
              exact Option.noConfusion hnone
          by_cases hgB : ((recomputeCounts houses es).find? (fun h => h.id == e.nodeB)).isSome
          · rw [if_pos hgB,
              bumpCurrent_find?_ne _ _ _ e.nodeA (fun hc => hiB hc.symm), hnone, hhn]
            rfl
          · rw [if_neg hgB, hnone, hhn]
            rfl
    · by_cases hiB : e.nodeB = i
      · subst hiB
        -- only nodeB is i
        rw [if_neg hiA, if_pos (Eq.refl e.nodeB)]
        by_cases hgA : ((recomputeCounts houses es).find? (fun h => h.id == e.nodeA)).isSome
        · rw [if_pos hgA]
          by_cases hgB2 : ((bumpCurrent (recomputeCounts houses es) e.nodeA e.count).find?
              (fun h => h.id == e.nodeB)).isSome
          · rw [if_pos hgB2, bumpCurrent_find?_self,
              bumpCurrent_find?_ne _ _ _ e.nodeB (fun hc => hiA hc.symm), ih,
              Option.map_map]
            cases houses.find? (fun n => n.id == e.nodeB) with
            | none => rfl
            | some n0 =>
              simp only [Option.map_some', Function.comp_apply]
              simp only [Option.some.injEq, NodeData.mk.injEq, true_and]
              all_goals omega
          · rw [if_neg hgB2]
            have hgB : ((recomputeCounts houses es).find?
                (fun h => h.id == e.nodeB)).isSome = false := by
              rw [← find?_id_isSome_eq _ _ (bumpCurrent_id_map
                (recomputeCounts houses es) e.nodeA e.count) e.nodeB]
              cases hx : ((bumpCurrent (recomputeCounts houses es) e.nodeA e.count).find?
                  (fun h => h.id == e.nodeB)).isSome with
              | false => rfl
              | true => exact absurd hx hgB2
            have hnone : (recomputeCounts houses es).find? (fun n => n.id == e.nodeB) = none :=
              Option.not_isSome_iff_eq_none.mp (by rw [hgB]; exact Bool.false_ne_true)
            have hhn : houses.find? (fun n => n.id == e.nodeB) = none := by
              rw [ih] at hnone
              cases hh : houses.find? (fun n => n.id == e.nodeB) with
              | none => rfl
              | some n0 =>
                rw [hh] at hnone
                exact Option.noConfusion hnone
            rw [bumpCurrent_find?_ne _ _ _ e.nodeB (fun hc => hiA hc.symm), hnone, hhn]
            rfl
        · rw [if_neg hgA]
          by_cases hgB : ((recomputeCounts houses es).find? (fun h => h.id == e.nodeB)).isSome
          · rw [if_pos hgB, bumpCurrent_find?_self, ih, Option.map_map]
            cases houses.find? (fun n => n.id == e.nodeB) with
            | none => rfl
            | some n0 =>
              simp only [Option.map_some', Function.comp_apply]
              simp only [Option.some.injEq, NodeData.mk.injEq, true_and]
              all_goals omega
          · rw [if_neg hgB]
            have hnone : (recomputeCounts houses es).find? (fun n => n.id == e.nodeB) = none :=
              Option.not_isSome_iff_eq_none.mp hgB
            have hhn : houses.find? (fun n => n.id == e.nodeB) = none := by
              rw [ih] at hnone
              cases hh : houses.find? (fun n => n.id == e.nodeB) with
              | none => rfl
              | some n0 =>
                rw [hh] at hnone
                exact Option.noConfusion hnone
            rw [hnone, hhn]
            rfl
      · -- neither endpoint is i
        rw [if_neg hiA, if_neg hiB]
        have hfin : ∀ ns : List NodeData,
            ns.find? (fun n => n.id == i) = (recomputeCounts houses es).find?
              (fun n => n.id == i) →
            (if (ns.find? (fun h => h.id == e.nodeB)).isSome
              then bumpCurrent ns e.nodeB e.count else ns).find? (fun n => n.id == i) =
              (recomputeCounts houses es).find? (fun n => n.id == i) := by
          intro ns hns
          by_cases hg : (ns.find? (fun h => h.id == e.nodeB)).isSome
          · rw [if_pos hg, bumpCurrent_find?_ne _ _ _ i (fun hc => hiB hc.symm), hns]
          · rw [if_neg hg, hns]
        by_cases hgA : ((recomputeCounts houses es).find? (fun h => h.id == e.nodeA)).isSome
        · rw [if_pos hgA]
          rw [hfin (bumpCurrent (recomputeCounts houses es) e.nodeA e.count)
            (bumpCurrent_find?_ne _ _ _ i (fun hc => hiA hc.symm)), ih]
          cases houses.find? (fun n => n.id == i) with
          | none => rfl
          | some n0 =>
            simp only [Option.map_some']
            simp only [Option.some.injEq, NodeData.mk.injEq, true_and]
            all_goals omega
        · rw [if_neg hgA]
          rw [hfin (recomputeCounts houses es) rfl, ih]
          cases houses.find? (fun n => n.id == i) with
          | none => rfl
          | some n0 =>
            simp only [Option.map_some']
            simp only [Option.some.injEq, NodeData.mk.injEq, true_and]
            all_goals omega


/-! ### Win-condition characterisation: degrees, BFS, connectivity -/

/-- Spec-side adjacency of the win check's BFS: u and v are joined by some
current edge, ignoring multiplicity. -/
def AdjB (edges : List EdgeData) (u v : String) : Prop :=
  ∃ e ∈ edges, (e.nodeA = u ∧ e.nodeB = v) ∨ (e.nodeB = u ∧ e.nodeA = v)

/-- All edge endpoints, in order (two per edge). -/
def endpointsList (edges : List EdgeData) : List String :=
  edges.flatMap (fun e => [e.nodeA, e.nodeB])

theorem endpointsList_length (edges : List EdgeData) :
    (endpointsList edges).length = 2 * edges.length := by
  induction edges with
  | nil => rfl
  | cons e es ih =>
    unfold endpointsList at *
    rw [List.flatMap_cons, List.length_append, ih]
    simp
    omega

theorem mem_endpointsList (edges : List EdgeData) (x : String) :
    x ∈ endpointsList edges ↔ ∃ e ∈ edges, x = e.nodeA ∨ x = e.nodeB := by
  unfold endpointsList
  rw [List.mem_flatMap]
  constructor
  · rintro ⟨e, he, hx⟩
    rw [List.mem_cons, List.mem_singleton] at hx
    rcases hx with h | h
    · exact ⟨e, he, Or.inl h⟩
    · exact ⟨e, he, Or.inr h⟩
  · rintro ⟨e, he, hx⟩
    rcases hx with h | h
    · exact ⟨e, he, by simp [h]⟩
    · exact ⟨e, he, by simp [h]⟩

theorem adjB_symm (edges : List EdgeData) (u v : String) (h : AdjB edges u v) :
    AdjB edges v u := by
  rcases h with ⟨e, he, h | h⟩
  · exact ⟨e, he, Or.inr ⟨h.2, h.1⟩⟩
  · exact ⟨e, he, Or.inl ⟨h.2, h.1⟩⟩

theorem neighborsOf_foldl_mem (u : String) (edges : List EdgeData)
    (acc : List String) (x : String) :
    (x ∈ edges.foldl
        (fun acc e =>
          let acc1 := if e.nodeA == u then acc ++ [e.nodeB] else acc
          if e.nodeB == u then acc1 ++ [e.nodeA] else acc1)
        acc) ↔ x ∈ acc ∨ AdjB edges u x := by
  induction edges generalizing acc with
  | nil =>
    simp only [List.foldl_nil, AdjB]
    simp
  | cons e es ih =>
    rw [List.foldl_cons, ih]
    have hstep : (x ∈
        (let acc1 := if e.nodeA == u then acc ++ [e.nodeB] else acc
         if e.nodeB == u then acc1 ++ [e.nodeA] else acc1)) ↔
        x ∈ acc ∨ (e.nodeA = u ∧ e.nodeB = x) ∨ (e.nodeB = u ∧ e.nodeA = x) := by
      by_cases hA : e.nodeA = u <;> by_cases hB : e.nodeB = u <;>
        simp [hA, hB, beq_iff_eq, List.mem_append, List.mem_singleton] <;> tauto
    rw [hstep]
    have hcons : AdjB (e :: es) u x ↔
        ((e.nodeA = u ∧ e.nodeB = x) ∨ (e.nodeB = u ∧ e.nodeA = x)) ∨ AdjB es u x := by
      unfold AdjB
      simp only [List.mem_cons]
      constructor
      · rintro ⟨e', he', hp⟩
        rcases he' with rfl | he'
        · exact Or.inl hp
        · exact Or.inr ⟨e', he', hp⟩
      · rintro (hp | ⟨e', he', hp⟩)
        · exact ⟨e, Or.inl rfl, hp⟩
        · exact ⟨e', Or.inr he', hp⟩
    rw [hcons]
    tauto

theorem mem_neighborsOf (edges : List EdgeData) (u x : String) :
    x ∈ neighborsOf edges u ↔ AdjB edges u x := by
  unfold neighborsOf
  rw [neighborsOf_foldl_mem]
  simp

theorem mem_endpointsList_of_adjB (edges : List EdgeData) (u x : String)
    (h : AdjB edges u x) : x ∈ endpointsList edges := by
  rcases h with ⟨e, he, h | h⟩
  · exact (mem_endpointsList edges x).mpr ⟨e, he, Or.inr h.2.symm⟩
  · exact (mem_endpointsList edges x).mpr ⟨e, he, Or.inl h.2.symm⟩

theorem length_le_of_nodup_subset (l s : List String) (h : l.Nodup)
    (hs : ∀ x ∈ l, x ∈ s) : l.length ≤ s.length := by
  have h1 : l.toFinset.card = l.length := List.toFinset_card_of_nodup h
  have h2 : l.toFinset ⊆ s.toFinset := by
    intro x hx
    rw [List.mem_toFinset] at *
    exact hs x hx
  calc l.length = l.toFinset.card := h1.symm
    _ ≤ s.toFinset.card := Finset.card_le_card h2
    _ ≤ s.length := List.toFinset_card_le s

theorem bfsPush_spec (ns : List String) (v q : List String) :
    ∃ added : List String,
      (ns.foldl (fun vq n => if n ∈ vq.1 then vq else (vq.1 ++ [n], vq.2 ++ [n])) (v, q)) =
        (v ++ added, q ++ added) ∧
      (∀ x ∈ added, x ∈ ns ∧ x ∉ v) ∧
      (∀ x ∈ ns, x ∈ v ++ added) ∧
      (v.Nodup → (v ++ added).Nodup) := by
  induction ns generalizing v q with
  | nil =>
    refine ⟨[], by simp, by simp, by simp, by simp⟩
  | cons n ns ih =>
    rw [List.foldl_cons]
    by_cases hn : n ∈ v
    · rw [if_pos (by exact hn)]
      rcases ih v q with ⟨added, heq, hsub, hcov, hnd⟩
      refine ⟨added, heq, ?_, ?_, hnd⟩
      · exact fun x hx => ⟨List.mem_cons_of_mem _ (hsub x hx).1, (hsub x hx).2⟩
      · intro x hx
        rcases List.mem_cons.mp hx with rfl | hx
        · exact List.mem_append.mpr (Or.inl hn)
        · exact hcov x hx
    · rw [if_neg (by exact hn)]
      rcases ih (v ++ [n]) (q ++ [n]) with ⟨added, heq, hsub, hcov, hnd⟩
      refine ⟨n :: added, ?_, ?_, ?_, ?_⟩
      · rw [heq]
        simp
      · intro x hx
        rcases List.mem_cons.mp hx with rfl | hx
        · exact ⟨List.mem_cons_self _ _, hn⟩
        · refine ⟨List.mem_cons_of_mem _ (hsub x hx).1, ?_⟩
          intro hxv
          exact (hsub x hx).2 (List.mem_append.mpr (Or.inl hxv))
      · intro x hx
        rcases List.mem_cons.mp hx with rfl | hx
        · exact List.mem_append.mpr (Or.inr (List.mem_cons_self _ _))
        · have := hcov x hx
          rw [List.append_assoc] at this
          simpa using this
      · intro hv
        have hvn : (v ++ [n]).Nodup := by
          rw [List.nodup_append]
          exact ⟨hv, List.nodup_singleton n, by simpa using hn⟩
        have := hnd hvn
        rw [List.append_assoc] at this
        simpa using this

theorem bfsAux_spec (adjF : String → List String) (S : List String)
    (hadj : ∀ u x, x ∈ adjF u → x ∈ S)
    (P : String → Prop) (hPc : ∀ u x, P u → x ∈ adjF u → P x) :
    ∀ (fuel : Nat) (queue visited : List String),
      visited.Nodup →
      (∀ x ∈ visited, x ∈ S) →
      (∀ x ∈ queue, x ∈ visited) →
      (∀ u ∈ visited, u ∉ queue → ∀ x ∈ adjF u, x ∈ visited) →
      (∀ x ∈ visited, P x) →
      S.length + queue.length ≤ fuel + visited.length →
      (bfsAux adjF fuel queue visited).Nodup ∧
      (∀ x ∈ visited, x ∈ bfsAux adjF fuel queue visited) ∧
      (∀ x ∈ bfsAux adjF fuel queue visited, x ∈ S) ∧
      (∀ x ∈ bfsAux adjF fuel queue visited, P x) ∧
      (∀ u ∈ bfsAux adjF fuel queue visited, ∀ x ∈ adjF u, x ∈ bfsAux adjF fuel queue visited) := by
  intro fuel
  induction fuel with
  | zero =>
    intro queue visited hnd hS hq hcl hP hfuel
    cases queue with
    | nil =>
      refine ⟨hnd, fun x hx => hx, hS, hP, ?_⟩
      intro u hu x hx
      exact hcl u hu (by simp) x hx
    | cons c rest =>
      exfalso
      have hle := length_le_of_nodup_subset visited S hnd hS
      simp only [List.length_cons] at hfuel
      omega
  | succ fuel ih =>
    intro queue visited hnd hS hq hcl hP hfuel
    cases queue with
    | nil =>
      refine ⟨hnd, fun x hx => hx, hS, hP, ?_⟩
      intro u hu x hx
      exact hcl u hu (by simp) x hx
    | cons c rest =>
      rcases bfsPush_spec (adjF c) visited rest with ⟨added, heq, hsub, hcov, hnd'⟩
      have hstep : bfsAux adjF (fuel + 1) (c :: rest) visited =
          bfsAux adjF fuel (rest ++ added) (visited ++ added) := by
        have hdef : bfsAux adjF (fuel + 1) (c :: rest) visited =
            bfsAux adjF fuel
              ((adjF c).foldl
                (fun vq n => if n ∈ vq.1 then vq else (vq.1 ++ [n], vq.2 ++ [n]))
                (visited, rest)).2
              ((adjF c).foldl
                (fun vq n => if n ∈ vq.1 then vq else (vq.1 ++ [n], vq.2 ++ [n]))
                (visited, rest)).1 := rfl
        rw [hdef, heq]
      rw [hstep]
      have haddS : ∀ x ∈ added, x ∈ S := fun x hx => hadj c x (hsub x hx).1
      have hvS : ∀ x ∈ visited ++ added, x ∈ S := by
        intro x hx
        rcases List.mem_append.mp hx with hx | hx
        · exact hS x hx
        · exact haddS x hx
      have hcIn : c ∈ visited := hq c (List.mem_cons_self _ _)
      have hres := ih (rest ++ added) (visited ++ added) (hnd' hnd) hvS
        (by
          intro x hx
          rcases List.mem_append.mp hx with hx | hx
          · exact List.mem_append.mpr (Or.inl (hq x (List.mem_cons_of_mem _ hx)))
          · exact List.mem_append.mpr (Or.inr hx))
        (by
          intro u hu hunq x hx
          rcases List.mem_append.mp hu with hu | hu
          · by_cases huc : u = c
            · subst huc
              exact hcov x hx
            · have hnotq : u ∉ c :: rest := by
                intro hmem
                rcases List.mem_cons.mp hmem with h | h
                · exact huc h
                · exact hunq (List.mem_append.mpr (Or.inl h))
              exact List.mem_append.mpr (Or.inl (hcl u hu hnotq x hx))
          · exact absurd (List.mem_append.mpr (Or.inr hu)) hunq)
        (by
          intro x hx
          rcases List.mem_append.mp hx with hx | hx
          · exact hP x hx
          · exact hPc c x (hP c hcIn) (hsub x hx).1)
        (by
          simp only [List.length_append, List.length_cons] at *
          omega)
      refine ⟨hres.1, ?_, hres.2.2.1, hres.2.2.2.1, hres.2.2.2.2⟩
      intro x hx
      exact hres.2.1 x (List.mem_append.mpr (Or.inl hx))

theorem bfsRun_spec (edges : List EdgeData) (start : String) :
    (bfsRun edges start).Nodup ∧
    start ∈ bfsRun edges start ∧
    (∀ x ∈ bfsRun edges start, x = start ∨ x ∈ endpointsList edges) ∧
    (∀ x ∈ bfsRun edges start, Relation.ReflTransGen (AdjB edges) start x) ∧
    (∀ u ∈ bfsRun edges start, ∀ x, AdjB edges u x → x ∈ bfsRun edges start) := by
  have hres := bfsAux_spec (neighborsOf edges) (start :: endpointsList edges)
    (by
      intro u x hx
      exact List.mem_cons_of_mem _
        (mem_endpointsList_of_adjB edges u x ((mem_neighborsOf edges u x).mp hx)))
    (Relation.ReflTransGen (AdjB edges) start)
    (by
      intro u x hu hx
      exact hu.tail ((mem_neighborsOf edges u x).mp hx))
    (2 * edges.length + 1) [start] [start]
    (List.nodup_singleton start)
    (by simp)
    (by simp)
    (by simp)
    (by
      intro x hx
      rw [List.mem_singleton] at hx
      subst hx
      exact Relation.ReflTransGen.refl)
    (by
      simp only [List.length_cons, List.length_singleton, endpointsList_length]
      omega)
  unfold bfsRun
  refine ⟨hres.1, hres.2.1 start (List.mem_singleton.mpr rfl), ?_, hres.2.2.2.1, ?_⟩
  · intro x hx
    have := hres.2.2.1 x hx
    simpa using this
  · intro u hu x hx
    exact hres.2.2.2.2 u hu x ((mem_neighborsOf edges u x).mpr hx)

theorem bfsRun_complete (edges : List EdgeData) (start x : String)
    (h : Relation.ReflTransGen (AdjB edges) start x) : x ∈ bfsRun edges start := by
  induction h with
  | refl => exact (bfsRun_spec edges start).2.1
  | tail _ hbc ih =>
    exact (bfsRun_spec edges start).2.2.2.2 _ ih _ hbc


/-! ### The win-condition check, characterised -/

theorem find?_self_of_nodup (l : List NodeData) (hnd : (l.map NodeData.id).Nodup)
    (n : NodeData) (hn : n ∈ l) : l.find? (fun m => m.id == n.id) = some n := by
  induction l with
  | nil => cases hn
  | cons a t ih =>
    rw [List.map_cons, List.nodup_cons] at hnd
    rcases List.mem_cons.mp hn with rfl | hn'
    · exact List.find?_cons_of_pos _ (by simp)
    · have hne : a.id ≠ n.id := by
        intro h
        exact hnd.1 (h ▸ List.mem_map.mpr ⟨n, hn', rfl⟩)
      rw [List.find?_cons_of_neg _ (by simp [hne])]
      exact ih hnd.2 hn'

theorem recompute_all_iff (houses : List NodeData) (edges : List EdgeData)
    (hnd : (houses.map NodeData.id).Nodup) :
    ((recomputeCounts houses edges).all
        (fun h => h.currentConnections == h.requiredConnections) = true) ↔
      ∀ n ∈ houses, incidentDegree edges n.id = n.requiredConnections := by
  rw [List.all_eq_true]
  constructor
  · intro hall n hn
    have hf := find?_self_of_nodup houses hnd n hn
    have hf2 := recomputeCounts_find? houses edges n.id
    rw [hf] at hf2
    have hmem := List.mem_of_find?_eq_some hf2
    have := hall _ hmem
    simpa using this
  · intro hdeg h hh
    have hnd' : ((recomputeCounts houses edges).map NodeData.id).Nodup := by
      rw [recomputeCounts_id_map]
      exact hnd
    have hf := find?_self_of_nodup _ hnd' h hh
    rw [recomputeCounts_find?] at hf
    cases hx : houses.find? (fun m => m.id == h.id) with
    | none =>
      rw [hx] at hf
      exact Option.noConfusion hf
    | some m =>
      rw [hx] at hf
      have hm : m ∈ houses := List.mem_of_find?_eq_some hx
      have heq : ({ m with currentConnections := incidentDegree edges h.id } : NodeData) = h :=
        Option.some.inj hf
      have hid : m.id = h.id := by rw [← heq]
      rw [← hid] at heq
      subst heq
      simp [hdeg m hm]

theorem length_eq_iff_cover (R ids : List String) (hR : R.Nodup) (hids : ids.Nodup)
    (hsub : ∀ x ∈ R, x ∈ ids) :
    R.length = ids.length ↔ ∀ x ∈ ids, x ∈ R := by
  have hsubF : R.toFinset ⊆ ids.toFinset := by
    intro x hx
    rw [List.mem_toFinset] at *
    exact hsub x hx
  constructor
  · intro hlen x hx
    have hset : R.toFinset = ids.toFinset := by
      apply Finset.eq_of_subset_of_card_le hsubF
      rw [List.toFinset_card_of_nodup hR, List.toFinset_card_of_nodup hids, hlen]
    rw [← List.mem_toFinset, hset, List.mem_toFinset]
    exact hx
  · intro hcov
    have h1 := length_le_of_nodup_subset R ids hR hsub
    have h2 := length_le_of_nodup_subset ids R hids hcov
    omega

theorem recomputeCounts_nil (edges : List EdgeData) : recomputeCounts [] edges = [] :=
  List.map_eq_nil_iff.mp (by rw [recomputeCounts_id_map]; rfl)

theorem checkWin_iff (houses : List NodeData) (edges : List EdgeData)
    (hnd : (houses.map NodeData.id).Nodup)
    (hwf : ∀ e ∈ edges, (∃ n ∈ houses, n.id = e.nodeA) ∧ (∃ n ∈ houses, n.id = e.nodeB)) :
    checkWinCondition houses edges = true ↔
      ∃ h0, houses.head? = some h0 ∧
        (∀ n ∈ houses, incidentDegree edges n.id = n.requiredConnections) ∧
        (∀ n ∈ houses, Relation.ReflTransGen (AdjB edges) h0.id n.id) := by
  unfold checkWinCondition
  simp only []
  by_cases hall : (recomputeCounts houses edges).all
      (fun h => h.currentConnections == h.requiredConnections) = true
  · rw [if_pos hall]
    have hdeg := (recompute_all_iff houses edges hnd).mp hall
    cases hcase : recomputeCounts houses edges with
    | nil =>
      have hmap := recomputeCounts_id_map houses edges
      rw [hcase] at hmap
      have hhe : houses = [] := List.map_eq_nil_iff.mp hmap.symm
      subst hhe
      simp
    | cons h0' hs' =>
      have hmap := recomputeCounts_id_map houses edges
      rw [hcase] at hmap
      cases houses with
      | nil => exact absurd hmap (by simp)
      | cons h0 t =>
        rw [List.map_cons, List.map_cons] at hmap
        injection hmap with hid0 htail
        have hlen' : hs'.length = t.length := by
          have := congrArg List.length htail
          simpa using this
        have hstart := bfsRun_spec edges h0.id
        have hcov := length_eq_iff_cover (bfsRun edges h0.id) ((h0 :: t).map NodeData.id)
          hstart.1 hnd (by
            intro x hx
            rcases hstart.2.2.1 x hx with h | h
            · rw [h]
              exact List.mem_map.mpr ⟨h0, List.mem_cons_self _ _, rfl⟩
            · rcases (mem_endpointsList edges x).mp h with ⟨e, he, h2 | h2⟩
              · rcases (hwf e he).1 with ⟨n, hn, hni⟩
                exact List.mem_map.mpr ⟨n, hn, by rw [hni, h2]⟩
              · rcases (hwf e he).2 with ⟨n, hn, hni⟩
                exact List.mem_map.mpr ⟨n, hn, by rw [hni, h2]⟩)
        have hidslen : ((h0 :: t).map NodeData.id).length = t.length + 1 := by simp
        constructor
        · intro hlhs
          have hlhs' : ((bfsRun edges h0'.id).length == (h0' :: hs').length) = true := hlhs
          rw [hid0] at hlhs'
          simp only [beq_iff_eq, List.length_cons] at hlhs'
          have hlen3 : (bfsRun edges h0.id).length = ((h0 :: t).map NodeData.id).length := by
            omega
          refine ⟨h0, rfl, hdeg, ?_⟩
          intro n hn
          have hmemR : n.id ∈ bfsRun edges h0.id :=
            (hcov.mp hlen3) _ (List.mem_map.mpr ⟨n, hn, rfl⟩)
          exact hstart.2.2.2.1 _ hmemR
        · rintro ⟨h0'', hh, _, hreach⟩
          have hh0 : h0'' = h0 := by
            have : some h0 = some h0'' := by
              rw [← hh]
              rfl
            exact (Option.some.inj this).symm
          rw [hh0] at hreach
          have hcover : ∀ x ∈ (h0 :: t).map NodeData.id, x ∈ bfsRun edges h0.id := by
            intro x hx
            rcases List.mem_map.mp hx with ⟨n, hn, rfl⟩
            exact bfsRun_complete edges h0.id n.id (hreach n hn)
          have hRlen := hcov.mpr hcover
          show ((bfsRun edges h0'.id).length == (h0' :: hs').length) = true
          rw [hid0]
          simp only [beq_iff_eq, List.length_cons]
          omega
  · rw [if_neg hall]
    constructor
    · intro h
      exact absurd h (by simp)
    · rintro ⟨h0, _, hdeg, _⟩
      exact absurd ((recompute_all_iff houses edges hnd).mpr hdeg) hall

/-- C2: the win check declares the puzzle solved iff every node's degree,
recomputed from scratch as the sum of the multiplicities of its incident
current edges, equals its requiredConnections, and every node is reachable
from the first node in the adjacency derived from the current edges
ignoring multiplicity (the set the BFS visits); with zero nodes the check
never declares the puzzle solved. -/
theorem c2_win_iff (houses : List NodeData) (edges : List EdgeData)
    (hnd : (houses.map NodeData.id).Nodup)
    (hwf : ∀ e ∈ edges, (∃ n ∈ houses, n.id = e.nodeA) ∧ (∃ n ∈ houses, n.id = e.nodeB)) :
    (checkWinCondition houses edges = true ↔
      ∃ h0, houses.head? = some h0 ∧
        (∀ n ∈ houses, incidentDegree edges n.id = n.requiredConnections) ∧
        (∀ n ∈ houses, Relation.ReflTransGen (AdjB edges) h0.id n.id)) ∧
    checkWinCondition [] edges = false := by
  refine ⟨checkWin_iff houses edges hnd hwf, ?_⟩
  unfold checkWinCondition
  simp only []
  rw [recomputeCounts_nil]
  rfl

theorem c2_win_iff_witness :
    (checkWinCondition
        [⟨"a", 0, 0, 1, 0⟩, ⟨"b", 2, 0, 1, 0⟩] [⟨"a", "b", 1⟩] = true ↔
      ∃ h0, ([⟨"a", 0, 0, 1, 0⟩, ⟨"b", 2, 0, 1, 0⟩] : List NodeData).head? = some h0 ∧
        (∀ n ∈ ([⟨"a", 0, 0, 1, 0⟩, ⟨"b", 2, 0, 1, 0⟩] : List NodeData),
          incidentDegree [⟨"a", "b", 1⟩] n.id = n.requiredConnections) ∧
        (∀ n ∈ ([⟨"a", 0, 0, 1, 0⟩, ⟨"b", 2, 0, 1, 0⟩] : List NodeData),
          Relation.ReflTransGen (AdjB [⟨"a", "b", 1⟩]) h0.id n.id)) ∧
    checkWinCondition [] [⟨"a", "b", 1⟩] = false :=
  c2_win_iff [⟨"a", 0, 0, 1, 0⟩, ⟨"b", 2, 0, 1, 0⟩] [⟨"a", "b", 1⟩]
    (by decide) (by decide)


/-! ### Undo round-trip: edge-map surgery and win-state congruence -/

/-- Spec-side canonical form of a stored edge record: endpoints sorted.
Two edge lists with permutation-equal canonical images describe the same
multiset of unordered connections. -/
def canonEdge (e : EdgeData) : EdgeData :=
  if e.nodeA ≤ e.nodeB then e else ⟨e.nodeB, e.nodeA, e.count⟩

theorem canonEdge_swap (x y : String) (c : Nat) :
    canonEdge ⟨x, y, c⟩ = canonEdge ⟨y, x, c⟩ := by
  unfold canonEdge
  simp only []
  by_cases hxy : x ≤ y
  · by_cases hyx : y ≤ x
    · rw [if_pos hxy, if_pos hyx]
      have hx : x = y := le_antisymm hxy hyx
      rw [hx]
    · rw [if_pos hxy, if_neg hyx]
  · have hyx : y ≤ x := (le_total x y).resolve_left hxy
    rw [if_neg hxy, if_pos hyx]

theorem incidentDegree_canon (edges : List EdgeData) (i : String) :
    incidentDegree (edges.map canonEdge) i = incidentDegree edges i := by
  unfold incidentDegree
  rw [List.map_map]
  congr 1
  apply List.map_congr_left
  intro e _
  simp only [Function.comp_apply]
  unfold canonEdge
  by_cases h : e.nodeA ≤ e.nodeB
  · rw [if_pos h]
  · rw [if_neg h]
    exact Nat.add_comm _ _

theorem incidentDegree_perm (e1 e2 : List EdgeData) (h : e1.Perm e2) (i : String) :
    incidentDegree e1 i = incidentDegree e2 i := by
  unfold incidentDegree
  exact (h.map _).sum_eq

theorem adjB_canon (edges : List EdgeData) (u v : String) :
    AdjB (edges.map canonEdge) u v ↔ AdjB edges u v := by
  unfold AdjB
  constructor
  · rintro ⟨e', he', hp⟩
    rcases List.mem_map.mp he' with ⟨e, he, rfl⟩
    refine ⟨e, he, ?_⟩
    unfold canonEdge at hp
    by_cases h : e.nodeA ≤ e.nodeB
    · rw [if_pos h] at hp
      exact hp
    · rw [if_neg h] at hp
      simp only [] at hp
      tauto
  · rintro ⟨e, he, hp⟩
    refine ⟨canonEdge e, List.mem_map.mpr ⟨e, he, rfl⟩, ?_⟩
    unfold canonEdge
    by_cases h : e.nodeA ≤ e.nodeB
    · rw [if_pos h]
      exact hp
    · rw [if_neg h]
      simp only []
      tauto

theorem adjB_perm (e1 e2 : List EdgeData) (h : e1.Perm e2) (u v : String) :
    AdjB e1 u v ↔ AdjB e2 u v := by
  unfold AdjB
  constructor
  · rintro ⟨e, he, hp⟩
    exact ⟨e, h.mem_iff.mp he, hp⟩
  · rintro ⟨e, he, hp⟩
    exact ⟨e, h.mem_iff.mpr he, hp⟩

theorem adjB_congr (e1 e2 : List EdgeData)
    (hperm : (e1.map canonEdge).Perm (e2.map canonEdge)) (u v : String) :
    AdjB e1 u v ↔ AdjB e2 u v := by
  rw [← adjB_canon e1, ← adjB_canon e2]
  exact adjB_perm _ _ hperm u v

theorem incidentDegree_congr (e1 e2 : List EdgeData)
    (hperm : (e1.map canonEdge).Perm (e2.map canonEdge)) (i : String) :
    incidentDegree e1 i = incidentDegree e2 i := by
  rw [← incidentDegree_canon e1, ← incidentDegree_canon e2]
  exact incidentDegree_perm _ _ hperm i

theorem checkWin_congr (houses : List NodeData) (e1 e2 : List EdgeData)
    (hnd : (houses.map NodeData.id).Nodup)
    (hwf1 : ∀ e ∈ e1, (∃ n ∈ houses, n.id = e.nodeA) ∧ (∃ n ∈ houses, n.id = e.nodeB))
    (hwf2 : ∀ e ∈ e2, (∃ n ∈ houses, n.id = e.nodeA) ∧ (∃ n ∈ houses, n.id = e.nodeB))
    (hperm : (e1.map canonEdge).Perm (e2.map canonEdge)) :
    checkWinCondition houses e1 = checkWinCondition houses e2 := by
  apply Bool.eq_iff_iff.mpr
  rw [checkWin_iff houses e1 hnd hwf1, checkWin_iff houses e2 hnd hwf2]
  constructor
  · rintro ⟨h0, hh, hdeg, hreach⟩
    refine ⟨h0, hh, ?_, ?_⟩
    · intro n hn
      rw [← incidentDegree_congr e1 e2 hperm]
      exact hdeg n hn
    · intro n hn
      exact Relation.ReflTransGen.mono
        (fun x y hxy => (adjB_congr e1 e2 hperm x y).mp hxy) (hreach n hn)
  · rintro ⟨h0, hh, hdeg, hreach⟩
    refine ⟨h0, hh, ?_, ?_⟩
    · intro n hn
      rw [incidentDegree_congr e1 e2 hperm]
      exact hdeg n hn
    · intro n hn
      exact Relation.ReflTransGen.mono
        (fun x y hxy => (adjB_congr e1 e2 hperm x y).mpr hxy) (hreach n hn)

theorem not_key_of_mapGet_none (m : EdgeMap) (k : String) (h : mapGet m k = none) :
    ∀ pr ∈ m, pr.1 ≠ k := by
  intro pr hpr hk
  have hf : m.find? (fun p => p.1 == k) = none := by
    unfold mapGet at h
    cases hx : m.find? (fun p => p.1 == k) with
    | none => rfl
    | some v =>
      rw [hx] at h
      exact Option.noConfusion h
  have := List.find?_eq_none.mp hf pr hpr
  simp [hk] at this

theorem mapDelete_eq_self (m : EdgeMap) (k : String) (h : ∀ pr ∈ m, pr.1 ≠ k) :
    mapDelete m k = m := by
  unfold mapDelete
  apply List.filter_eq_self.mpr
  intro pr hpr
  simp [h pr hpr]

theorem any_key_of_mapGet_some (m : EdgeMap) (k : String) (e₀ : EdgeData)
    (h : mapGet m k = some e₀) : m.any (fun p => p.1 == k) = true := by
  unfold mapGet at h
  rcases Option.map_eq_some'.mp h with ⟨pr, hpr, _⟩
  rw [List.any_eq_true]
  have h2 : (pr.1 == k) = true := by
    have h3 := List.find?_some hpr
    simpa using h3
  exact ⟨pr, List.mem_of_find?_eq_some hpr, h2⟩

theorem any_key_of_mapGet_none (m : EdgeMap) (k : String) (h : mapGet m k = none) :
    m.any (fun p => p.1 == k) = false := by
  cases hx : m.any (fun p => p.1 == k) with
  | false => rfl
  | true =>
    rcases List.any_eq_true.mp hx with ⟨pr, hpr, hprk⟩
    exact absurd (by simpa using hprk) (not_key_of_mapGet_none m k h pr hpr)

theorem mapSet_absent (m : EdgeMap) (k : String) (v : EdgeData)
    (h : m.any (fun p => p.1 == k) = false) :
    mapSet m k v = m ++ [(k, v)] := by
  unfold mapSet
  rw [if_neg (by simp [h])]

theorem mem_of_mapGet_some (m : EdgeMap) (k : String) (e₀ : EdgeData)
    (h : mapGet m k = some e₀) : (k, e₀) ∈ m := by
  unfold mapGet at h
  rcases Option.map_eq_some'.mp h with ⟨pr, hpr, hsnd⟩
  have hk : pr.1 = k := by
    have := List.find?_some hpr
    simpa using this
  have hmem := List.mem_of_find?_eq_some hpr
  have : pr = (k, e₀) := by
    cases pr
    simp only [] at hk hsnd
    rw [hk, hsnd]
  rw [← this]
  exact hmem

theorem entry_unique_of_nodup (m : EdgeMap) (k : String) (e₀ : EdgeData)
    (hnd : (m.map Prod.fst).Nodup) (hget : mapGet m k = some e₀) :
    ∀ pr ∈ m, pr.1 = k → pr.2 = e₀ := by
  induction m with
  | nil =>
    intro pr hpr
    cases hpr
  | cons q rest ih =>
    rw [List.map_cons, List.nodup_cons] at hnd
    intro pr hpr hk
    by_cases hq : q.1 = k
    · have hhead : mapGet (q :: rest) k = some q.2 := by
        unfold mapGet
        rw [List.find?_cons_of_pos _ (by simp [hq])]
        rfl
      have he : q.2 = e₀ := Option.some.inj (hhead.symm.trans hget)
      rcases List.mem_cons.mp hpr with rfl | hpr'
      · exact he
      · exfalso
        exact hnd.1 (hq ▸ hk ▸ List.mem_map.mpr ⟨pr, hpr', rfl⟩)
    · have hget' : mapGet rest k = some e₀ := by
        unfold mapGet at hget ⊢
        rw [List.find?_cons_of_neg _ (by simp [hq])] at hget
        exact hget
      rcases List.mem_cons.mp hpr with rfl | hpr'
      · exact absurd hk hq
      · exact ih hnd.2 hget' pr hpr' hk

theorem values_delete_perm (m : EdgeMap) (k : String) (e₀ : EdgeData)
    (hnd : (m.map Prod.fst).Nodup) (hget : mapGet m k = some e₀) :
    (e₀ :: edgeValues (mapDelete m k)).Perm (edgeValues m) := by
  induction m with
  | nil =>
    exfalso
    unfold mapGet at hget
    simp at hget
  | cons pr rest ih =>
    rw [List.map_cons, List.nodup_cons] at hnd
    by_cases hk : pr.1 = k
    · have hhead : mapGet (pr :: rest) k = some pr.2 := by
        unfold mapGet
        rw [List.find?_cons_of_pos _ (by simp [hk])]
        rfl
      have he : pr.2 = e₀ := Option.some.inj (hhead.symm.trans hget)
      have hdel : mapDelete (pr :: rest) k = mapDelete rest k := by
        unfold mapDelete
        rw [List.filter_cons]
        rw [if_neg (by simp [hk])]
      have hrest : mapDelete rest k = rest := by
        apply mapDelete_eq_self
        intro pr' hpr' hk'
        exact hnd.1 (hk ▸ hk' ▸ List.mem_map.mpr ⟨pr', hpr', rfl⟩)
      rw [hdel, hrest]
      unfold edgeValues
      rw [List.map_cons, he]
    · have hget' : mapGet rest k = some e₀ := by
        unfold mapGet at hget ⊢
        rw [List.find?_cons_of_neg _ (by simp [hk])] at hget
        exact hget
      have hdel : mapDelete (pr :: rest) k = pr :: mapDelete rest k := by
        unfold mapDelete
        rw [List.filter_cons]
        rw [if_pos (by simp [hk])]
      rw [hdel]
      unfold edgeValues
      rw [List.map_cons, List.map_cons]
      exact (List.Perm.swap _ _ _).trans ((ih hnd.2 hget').cons pr.2)

theorem mapSet_twice_of_any (m : EdgeMap) (k : String) (v₁ v₂ : EdgeData)
    (h : m.any (fun p => p.1 == k) = true) :
    mapSet (mapSet m k v₁) k v₂ = mapSet m k v₂ := by
  have h1 : mapSet m k v₁ = m.map (fun p => if p.1 == k then (k, v₁) else p) := by
    unfold mapSet
    rw [if_pos h]
  have h2 : mapSet m k v₂ = m.map (fun p => if p.1 == k then (k, v₂) else p) := by
    unfold mapSet
    rw [if_pos h]
  have hany2 : (m.map (fun p => if p.1 == k then (k, v₁) else p)).any
      (fun p => p.1 == k) = true := by
    rw [List.any_eq_true] at h ⊢
    rcases h with ⟨pr, hpr, hprk⟩
    exact ⟨(k, v₁), List.mem_map.mpr ⟨pr, hpr, by rw [if_pos hprk]⟩, by simp⟩
  have h3 : mapSet (m.map (fun p => if p.1 == k then (k, v₁) else p)) k v₂ =
      (m.map (fun p => if p.1 == k then (k, v₁) else p)).map
        (fun p => if p.1 == k then (k, v₂) else p) := by
    unfold mapSet
    rw [if_pos hany2]
  rw [h1, h3, h2, List.map_map]
  apply List.map_congr_left
  intro pr _
  by_cases hk : pr.1 = k
  · simp [Function.comp_apply, hk]
  · simp [Function.comp_apply, hk]

theorem edgeValues_append (m₁ m₂ : EdgeMap) :
    edgeValues (m₁ ++ m₂) = edgeValues m₁ ++ edgeValues m₂ := by
  unfold edgeValues
  rw [List.map_append]

theorem mem_edgeValues_mapDelete (m : EdgeMap) (k : String) (e : EdgeData)
    (h : e ∈ edgeValues (mapDelete m k)) : e ∈ edgeValues m := by
  unfold edgeValues mapDelete at *
  exact ((List.filter_sublist m).map Prod.snd).mem h

theorem hasConnection_setConnection_self (m : EdgeMap) (a b : NodeData) (c : Nat)
    (hc : c ≠ 0) : hasConnection (setConnection m a b c) a.id b.id = c := by
  unfold setConnection hasConnection
  simp only []
  rw [if_neg hc, mapGet_mapSet_self]


theorem mapDelete_append_self (m : EdgeMap) (k : String) (v : EdgeData)
    (h : ∀ pr ∈ m, pr.1 ≠ k) : mapDelete (m ++ [(k, v)]) k = m := by
  unfold mapDelete
  rw [List.filter_append]
  have h1 : m.filter (fun p => !(p.1 == k)) = m := by
    apply List.filter_eq_self.mpr
    intro pr hpr
    simp [h pr hpr]
  rw [h1]
  simp

/-- C8: the undo round-trip.  Writing any multiplicity m to the pair {a, b}
with setConnection and then writing back the pair's previous multiplicity p
restores the pair's multiplicity exactly, and the win-condition check
computes the same solved/unsolved answer on the resulting edge store as on
the original one. -/
theorem c8_undo_round_trip (m0 : EdgeMap) (houses : List NodeData) (a b : NodeData)
    (m : Nat)
    (hinv : StoreInv m0)
    (hpair : ∀ pr ∈ m0, pr.1 = getEdgeKey a.id b.id →
      (pr.2.nodeA = a.id ∧ pr.2.nodeB = b.id) ∨ (pr.2.nodeA = b.id ∧ pr.2.nodeB = a.id))
    (hnd : (houses.map NodeData.id).Nodup)
    (hwf : ∀ e ∈ edgeValues m0,
      (∃ n ∈ houses, n.id = e.nodeA) ∧ (∃ n ∈ houses, n.id = e.nodeB))
    (ha : ∃ n ∈ houses, n.id = a.id) (hb : ∃ n ∈ houses, n.id = b.id) :
    hasConnection (setConnection (setConnection m0 a b m) a b
        (hasConnection m0 a.id b.id)) a.id b.id = hasConnection m0 a.id b.id ∧
    checkWinCondition houses (edgeValues (setConnection (setConnection m0 a b m) a b
        (hasConnection m0 a.id b.id))) = checkWinCondition houses (edgeValues m0) := by
  cases hget : mapGet m0 (getEdgeKey a.id b.id) with
  | none =>
    have hp0 : hasConnection m0 a.id b.id = 0 := by
      unfold hasConnection
      rw [hget]
    have hkeys := not_key_of_mapGet_none m0 _ hget
    have hdel : mapDelete m0 (getEdgeKey a.id b.id) = m0 := mapDelete_eq_self _ _ hkeys
    by_cases hm0 : m = 0
    · subst hm0
      have h1 : setConnection m0 a b 0 = m0 := by
        unfold setConnection
        simp only []
        rw [if_pos trivial]
        exact hdel
      rw [hp0, h1, h1]
      exact ⟨hp0, rfl⟩
    · have hany : m0.any (fun p => p.1 == getEdgeKey a.id b.id) = false :=
        any_key_of_mapGet_none m0 _ hget
      have h1 : setConnection m0 a b m =
          m0 ++ [(getEdgeKey a.id b.id, ⟨a.id, b.id, m⟩)] := by
        unfold setConnection
        simp only []
        rw [if_neg hm0]
        exact mapSet_absent m0 _ _ hany
      have h2 : setConnection (m0 ++ [(getEdgeKey a.id b.id, ⟨a.id, b.id, m⟩)]) a b 0 =
          m0 := by
        unfold setConnection
        simp only []
        rw [if_pos trivial]
        exact mapDelete_append_self m0 _ _ hkeys
      rw [hp0, h1, h2]
      exact ⟨hp0, rfl⟩
  | some e₀ =>
    have hpv : hasConnection m0 a.id b.id = e₀.count := by
      unfold hasConnection
      rw [hget]
    have hmem : (getEdgeKey a.id b.id, e₀) ∈ m0 := mem_of_mapGet_some _ _ _ hget
    have hcnt : e₀.count = 1 ∨ e₀.count = 2 := (hinv.2 _ hmem).2
    have hcne : e₀.count ≠ 0 := by rcases hcnt with h | h <;> omega
    have hpaire := hpair _ hmem rfl
    have hcanon : canonEdge ⟨a.id, b.id, e₀.count⟩ = canonEdge e₀ := by
      rcases hpaire with ⟨h1, h2⟩ | ⟨h1, h2⟩
      · rw [← h1, ← h2]
      · rw [← h1, ← h2]
        exact canonEdge_swap _ _ _
    by_cases hm0 : m = 0
    · subst hm0
      have h1 : setConnection m0 a b 0 = mapDelete m0 (getEdgeKey a.id b.id) := by
        unfold setConnection
        simp only []
        rw [if_pos trivial]
      have hany1 : (mapDelete m0 (getEdgeKey a.id b.id)).any
          (fun p => p.1 == getEdgeKey a.id b.id) = false :=
        any_key_of_mapGet_none _ _ (mapGet_mapDelete_self m0 _)
      have h2 : setConnection (mapDelete m0 (getEdgeKey a.id b.id)) a b e₀.count =
          mapDelete m0 (getEdgeKey a.id b.id) ++
            [(getEdgeKey a.id b.id, ⟨a.id, b.id, e₀.count⟩)] := by
        unfold setConnection
        simp only []
        rw [if_neg hcne]
        exact mapSet_absent _ _ _ hany1
      constructor
      · rw [hpv, h1]
        exact hasConnection_setConnection_self _ a b e₀.count hcne
      · rw [hpv, h1, h2]
        refine checkWin_congr houses _ _ hnd ?_ hwf ?_
        · intro e he
          rw [edgeValues_append] at he
          rcases List.mem_append.mp he with he | he
          · exact hwf e (mem_edgeValues_mapDelete m0 _ e he)
          · have hev : e = ⟨a.id, b.id, e₀.count⟩ := by
              simpa [edgeValues] using he
            subst hev
            exact ⟨ha, hb⟩
        · rw [edgeValues_append]
          have hstep1 : ((edgeValues (mapDelete m0 (getEdgeKey a.id b.id)) ++
              edgeValues [(getEdgeKey a.id b.id, ⟨a.id, b.id, e₀.count⟩)]).map
                canonEdge).Perm
              (canonEdge ⟨a.id, b.id, e₀.count⟩ ::
                (edgeValues (mapDelete m0 (getEdgeKey a.id b.id))).map canonEdge) := by
            rw [List.map_append]
            exact List.perm_append_singleton _ _
          have hstep2 :=
            (values_delete_perm m0 (getEdgeKey a.id b.id) e₀ hinv.1 hget).map canonEdge
          rw [List.map_cons] at hstep2
          refine hstep1.trans ?_
          rw [hcanon]
          exact hstep2
    · have hany : m0.any (fun p => p.1 == getEdgeKey a.id b.id) = true :=
        any_key_of_mapGet_some m0 _ e₀ hget
      have h1 : setConnection m0 a b m =
          mapSet m0 (getEdgeKey a.id b.id) ⟨a.id, b.id, m⟩ := by
        unfold setConnection
        simp only []
        rw [if_neg hm0]
      have h2 : setConnection (mapSet m0 (getEdgeKey a.id b.id) ⟨a.id, b.id, m⟩) a b
            e₀.count =
          mapSet m0 (getEdgeKey a.id b.id) ⟨a.id, b.id, e₀.count⟩ := by
        unfold setConnection
        simp only []
        rw [if_neg hcne]
        exact mapSet_twice_of_any m0 _ _ _ hany
      constructor
      · rw [hpv, h1]
        exact hasConnection_setConnection_self _ a b e₀.count hcne
      · rw [hpv, h1, h2]
        have hform : mapSet m0 (getEdgeKey a.id b.id) ⟨a.id, b.id, e₀.count⟩ =
            m0.map (fun p => if p.1 == getEdgeKey a.id b.id
              then (getEdgeKey a.id b.id, ⟨a.id, b.id, e₀.count⟩) else p) := by
          unfold mapSet
          rw [if_pos hany]
        rw [hform]
        refine checkWin_congr houses _ _ hnd ?_ hwf ?_
        · intro e he
          unfold edgeValues at he
          rw [List.map_map] at he
          rcases List.mem_map.mp he with ⟨pr, hpr, rfl⟩
          simp only [Function.comp_apply]
          by_cases hk : pr.1 = getEdgeKey a.id b.id
          · rw [if_pos (by simp [hk])]
            exact ⟨ha, hb⟩
          · rw [if_neg (by simp [hk])]
            exact hwf pr.2 (List.mem_map.mpr ⟨pr, hpr, rfl⟩)
        · have hEq : (edgeValues (m0.map (fun p => if p.1 == getEdgeKey a.id b.id
              then (getEdgeKey a.id b.id, ⟨a.id, b.id, e₀.count⟩) else p))).map canonEdge =
              (edgeValues m0).map canonEdge := by
            unfold edgeValues
            rw [List.map_map, List.map_map, List.map_map]
            apply List.map_congr_left
            intro pr hpr
            simp only [Function.comp_apply]
            by_cases hk : pr.1 = getEdgeKey a.id b.id
            · rw [if_pos (by simp [hk])]
              have hpe : pr.2 = e₀ := entry_unique_of_nodup m0 _ e₀ hinv.1 hget pr hpr hk
              rw [hpe]
              exact hcanon
            · rw [if_neg (by simp [hk])]
          rw [hEq]

theorem c8_undo_round_trip_witness :
    hasConnection
        (setConnection
          (setConnection [(getEdgeKey "a" "b", ⟨"a", "b", 1⟩)]
            ⟨"a", 0, 0, 1, 0⟩ ⟨"b", 2, 0, 1, 0⟩ 2)
          ⟨"a", 0, 0, 1, 0⟩ ⟨"b", 2, 0, 1, 0⟩
          (hasConnection [(getEdgeKey "a" "b", ⟨"a", "b", 1⟩)]
            (NodeData.id ⟨"a", 0, 0, 1, 0⟩) (NodeData.id ⟨"b", 2, 0, 1, 0⟩)))
        (NodeData.id ⟨"a", 0, 0, 1, 0⟩) (NodeData.id ⟨"b", 2, 0, 1, 0⟩) =
      hasConnection [(getEdgeKey "a" "b", ⟨"a", "b", 1⟩)]
        (NodeData.id ⟨"a", 0, 0, 1, 0⟩) (NodeData.id ⟨"b", 2, 0, 1, 0⟩) ∧
    checkWinCondition [⟨"a", 0, 0, 1, 0⟩, ⟨"b", 2, 0, 1, 0⟩]
        (edgeValues (setConnection
          (setConnection [(getEdgeKey "a" "b", ⟨"a", "b", 1⟩)]
            ⟨"a", 0, 0, 1, 0⟩ ⟨"b", 2, 0, 1, 0⟩ 2)
          ⟨"a", 0, 0, 1, 0⟩ ⟨"b", 2, 0, 1, 0⟩
          (hasConnection [(getEdgeKey "a" "b", ⟨"a", "b", 1⟩)]
            (NodeData.id ⟨"a", 0, 0, 1, 0⟩) (NodeData.id ⟨"b", 2, 0, 1, 0⟩)))) =
      checkWinCondition [⟨"a", 0, 0, 1, 0⟩, ⟨"b", 2, 0, 1, 0⟩]
        (edgeValues [(getEdgeKey "a" "b", ⟨"a", "b", 1⟩)]) :=
  c8_undo_round_trip [(getEdgeKey "a" "b", ⟨"a", "b", 1⟩)]
    [⟨"a", 0, 0, 1, 0⟩, ⟨"b", 2, 0, 1, 0⟩]
    ⟨"a", 0, 0, 1, 0⟩ ⟨"b", 2, 0, 1, 0⟩ 2
    ⟨by simp, by
      intro p hp
      rw [List.mem_singleton] at hp
      subst hp
      exact ⟨rfl, Or.inl rfl⟩⟩
    (by
      intro pr hpr _
      rw [List.mem_singleton] at hpr
      subst hpr
      exact Or.inl ⟨rfl, rfl⟩)
    (by decide) (by decide) (by decide) (by decide)

end Hashi
